import Mathlib

/-!
A verification development for the Perl debug-adapter session
(`src/perlDebug.ts`).  The session logic is shallowly embedded: the
regex-driven line classifiers of the variable-dump parser are embedded via a
small backtracking regex engine whose patterns transcribe the source regexes
one for one; the stateful methods become explicit state-passing functions in
which the external debugger engine is an oracle (a list of responses consumed
in request order, or a per-line breakability predicate).  Machine integers do
not overflow in any modelled path, so counters are `Int`/`Nat`.
-/

namespace PerlDebug

/-! ## String helpers (JavaScript semantics) -/

/-- Does `pat` occur as a contiguous run inside `s`? -/
def listInfixOf (pat : List Char) : List Char → Bool
  | [] => pat.isPrefixOf []
  | c :: rest => pat.isPrefixOf (c :: rest) || listInfixOf pat rest

/-- JS `String.prototype.includes`: substring containment. -/
def strContains (s pat : String) : Bool :=
  listInfixOf pat.toList s.toList

/-- JS `Array.prototype.slice(start, end)` with a possibly negative `end`
index (as used at `lines.slice(1, idx)` where `idx` may be `-1`). -/
def jsSlice (l : List String) (start : Nat) (stop : Int) : List String :=
  let stopN : Nat := if stop < 0 then l.length - (-stop).toNat else stop.toNat
  (l.take stopN).drop start

/-- `slice(1, -1)`: drop the first and last element (the echoed command and
the prompt line of a response). -/
def body (l : List String) : List String :=
  jsSlice l 1 (-1)

/-- Replace the first occurrence of `=` by `=>`
(JS `replace(/=/, '=>')` at `varDump[0]`). -/
def replaceFirstEq (s : String) : String :=
  let rec go : List Char → List Char
    | [] => []
    | c :: rest => if c = '=' then '=' :: '>' :: rest else c :: go rest
  ⟨go s.toList⟩

/-- JS truthiness of an optional capture: `undefined` and `""` are falsy. -/
def truthy (o : Option String) : Bool :=
  match o with
  | none => false
  | some s => s ≠ ""

/-- `String.prototype.startsWith`, computed on character lists (the
built-in `String.startsWith` works on byte positions, which the kernel
cannot evaluate). -/
def strStartsWith (s pre : String) : Bool :=
  pre.toList.isPrefixOf s.toList

/-- `String.prototype.endsWith`, computed on character lists. -/
def strEndsWith (s suf : String) : Bool :=
  suf.toList.isSuffixOf s.toList

/-! ## A small backtracking regex engine

The source classifies dump lines with JavaScript regexes.  We embed them as
values of an inductive pattern type and run them with a greedy backtracking
matcher, mirroring the JS engine: alternatives are tried left to right,
`?` and `.*` are greedy, the search (for unanchored patterns) returns the
leftmost match.  Every star in the source regexes is over a one-character
class, so the star constructor is specialised to character classes, which
makes the matcher structurally terminating. -/

inductive Re where
  | eps : Re
  | chr : Char → Re
  | cls : (Char → Bool) → Re
  | seq : Re → Re → Re
  | alt : Re → Re → Re
  | opt : Re → Re
  | starCls : (Char → Bool) → Re
  | group : Nat → Re → Re

/-- Captures: group index to captured text, latest write first. -/
abbrev Caps := List (Nat × String)

def capGet (caps : Caps) (i : Nat) : Option String :=
  (caps.find? (fun p => p.1 = i)).map (·.2)

/-- JS `.` (no `s` flag): any character except a line terminator. -/
def jsDot (c : Char) : Bool := c ≠ '\n' ∧ c ≠ '\r'

/-- JS `\s` (the whitespace characters occurring in debugger output). -/
def jsWs (c : Char) : Bool :=
  c = ' ' ∨ c = '\t' ∨ c = '\n' ∨ c = '\r' ∨ c = '\x0b' ∨ c = '\x0c'

def jsDigit (c : Char) : Bool := '0' ≤ c ∧ c ≤ '9'

/-- `String.prototype.trim`, computed on character lists. -/
def jsTrim (s : String) : String :=
  ⟨((s.toList.dropWhile jsWs).reverse.dropWhile jsWs).reverse⟩

/-- Greedy star over a character class: consume the longest run first,
backtracking one character at a time. -/
def starRun (p : Char → Bool) (s : List Char) (caps : Caps)
    (k : List Char → Caps → Option Caps) : Option Caps :=
  match s with
  | [] => k [] caps
  | c :: rest =>
    if p c then
      match starRun p rest caps k with
      | some r => some r
      | none => k s caps
    else k s caps

/-- The backtracking matcher in continuation style.  `k` receives the
remaining input and captures of a candidate match. -/
def reM (r : Re) (s : List Char) (caps : Caps)
    (k : List Char → Caps → Option Caps) : Option Caps :=
  match r with
  | .eps => k s caps
  | .chr c =>
    match s with
    | [] => none
    | c' :: rest => if c' = c then k rest caps else none
  | .cls p =>
    match s with
    | [] => none
    | c' :: rest => if p c' then k rest caps else none
  | .seq a b => reM a s caps (fun s' caps' => reM b s' caps' k)
  | .alt a b =>
    match reM a s caps k with
    | some r => some r
    | none => reM b s caps k
  | .opt a =>
    match reM a s caps k with
    | some r => some r
    | none => k s caps
  | .starCls p => starRun p s caps k
  | .group i a =>
    reM a s caps
      (fun s' caps' => k s' ((i, ⟨s.take (s.length - s'.length)⟩) :: caps'))

/-- Match `r` anchored at the start of `s`; `anchorEnd` also requires the
match to consume the whole string. -/
def reMatchAt (r : Re) (anchorEnd : Bool) (s : List Char) : Option Caps :=
  reM r s [] (fun s' caps => if anchorEnd && s' ≠ [] then none else some caps)

/-- JS `String.prototype.match` for a pattern without a leading `^`:
try each start position from the left, returning the leftmost match. -/
def reSearch (r : Re) (anchorEnd : Bool) (s : List Char) : Option Caps :=
  match reMatchAt r anchorEnd s with
  | some caps => some caps
  | none =>
    match s with
    | [] => none
    | _ :: rest => reSearch r anchorEnd rest

/-- Sequence a list of patterns. -/
def Re.seqAll (l : List Re) : Re :=
  l.foldr Re.seq Re.eps

/-- The pattern matching a literal string. -/
def Re.ofString (s : String) : Re :=
  Re.seqAll (s.toList.map Re.chr)

/-- Chain a list of patterns as left-to-right alternatives. -/
def Re.altAll (l : List Re) : Re :=
  match l with
  | [] => Re.eps
  | [r] => r
  | r :: rest => Re.alt r (Re.altAll rest)

/-! ## The source regexes

Transcriptions of the line classifiers of `perlDebug.ts` (the comment above
each definition quotes the original).  Literal braces and apostrophes inside
patterns and strings are written with `\x7b`, `\x7d` and `\x27` escapes. -/

def clsComma (c : Char) : Bool := c = ',' ∨ c = '|' ∨ c = ';'

/-- The value alternatives shared by `isNamedVariable` and
`isIndexedVariable`:
`undef|".*"|-?\d+|\[\]|\{\}|bless\(.*\)|sub\s\{.*\}` (the named variant adds
`\\\*\{".*\"}|\\{1,2}\*.*`). -/
def valueAlts : List Re :=
  [ Re.ofString "undef",
    Re.seqAll [Re.chr '"', Re.starCls jsDot, Re.chr '"'],
    Re.seqAll [Re.opt (Re.chr '-'), Re.cls jsDigit, Re.starCls jsDigit],
    Re.ofString "[]",
    Re.ofString "\x7b\x7d",
    Re.seqAll [Re.ofString "bless(", Re.starCls jsDot, Re.chr ')'],
    Re.seqAll [Re.ofString "sub", Re.cls jsWs, Re.chr '\x7b',
      Re.starCls jsDot, Re.chr '\x7d'] ]

/-- `isNamedVariable =
/"?(.*)"?\s=>?\s(undef|".*"|-?\d+|\[\]|\{\}|bless\(.*\)|sub\s\{.*\}|\\\*\{".*\"}|\\{1,2}\*.*)[,|;]$/`
-/
def isNamedVariableRe : Re :=
  Re.seqAll
    [ Re.opt (Re.chr '"'), Re.group 1 (Re.starCls jsDot), Re.opt (Re.chr '"'),
      Re.cls jsWs, Re.chr '=', Re.opt (Re.chr '>'), Re.cls jsWs,
      Re.group 2 (Re.altAll (valueAlts ++
        [ Re.seqAll [Re.chr '\\', Re.chr '*', Re.chr '\x7b', Re.chr '"',
            Re.starCls jsDot, Re.chr '"', Re.chr '\x7d'],
          Re.seqAll [Re.chr '\\', Re.opt (Re.chr '\\'), Re.chr '*',
            Re.starCls jsDot] ])),
      Re.cls clsComma ]

/-- Unanchored at the start, anchored at the end. -/
def isNamedVariable (s : String) : Option Caps :=
  reSearch isNamedVariableRe true s.toList

/-- `isIndexedVariable =
/^(undef|".*"|-?\d+|\[\]|\{\}|bless\(.*\)|sub\s\{.*\})[,|;]/` -/
def isIndexedVariableRe : Re :=
  Re.seqAll [Re.group 1 (Re.altAll valueAlts), Re.cls clsComma]

/-- Anchored at the start only. -/
def isIndexedVariable (s : String) : Option Caps :=
  reMatchAt isIndexedVariableRe false s.toList

/-- `isNestedHash = /"(.*)"\s=>?\s(bless\(\s)?(\[|\{)/` -/
def isNestedHashRe : Re :=
  Re.seqAll
    [ Re.chr '"', Re.group 1 (Re.starCls jsDot), Re.chr '"',
      Re.cls jsWs, Re.chr '=', Re.opt (Re.chr '>'), Re.cls jsWs,
      Re.opt (Re.group 2 (Re.seqAll [Re.ofString "bless(", Re.cls jsWs])),
      Re.group 3 (Re.alt (Re.chr '[') (Re.chr '\x7b')) ]

/-- Unanchored on both sides. -/
def isNestedHash (s : String) : Option Caps :=
  reSearch isNestedHashRe false s.toList

/-- `isNestedArray = /^(bless\(\s*)?(\{|\[)$/` -/
def isNestedArrayRe : Re :=
  Re.seqAll
    [ Re.opt (Re.group 1 (Re.seqAll [Re.ofString "bless(", Re.starCls jsWs])),
      Re.group 2 (Re.alt (Re.chr '\x7b') (Re.chr '[')) ]

/-- Anchored on both sides. -/
def isNestedArray (s : String) : Option Caps :=
  reMatchAt isNestedArrayRe true s.toList

/-- `isVarEnd = /^(\}|\]),?(\s?'(.*)'\s\))?[,|;]/` -/
def isVarEndRe : Re :=
  Re.seqAll
    [ Re.group 1 (Re.alt (Re.chr '\x7d') (Re.chr ']')), Re.opt (Re.chr ','),
      Re.opt (Re.group 2 (Re.seqAll
        [ Re.opt (Re.cls jsWs), Re.chr '\x27', Re.group 3 (Re.starCls jsDot),
          Re.chr '\x27', Re.cls jsWs, Re.chr ')' ])),
      Re.cls clsComma ]

/-- Anchored at the start only. -/
def isVarEnd (s : String) : Option Caps :=
  reMatchAt isVarEndRe false s.toList

/-- `/^\$VAR1\s=\s.*/` (only truthiness is consumed by the source). -/
def isVarDumpStart (s : String) : Bool :=
  (reMatchAt
    (Re.seqAll [Re.ofString "$VAR1", Re.cls jsWs, Re.chr '=', Re.cls jsWs,
      Re.starCls jsDot]) false s.toList).isSome

/-- `/loaded source (.*)/`: the path reported by a loaded-source line. -/
def loadedSourcePath (s : String) : Option String :=
  (reSearch (Re.seqAll
      [Re.ofString "loaded source ", Re.group 1 (Re.starCls jsDot)])
    false s.toList).bind (fun caps => capGet caps 1)

/-- `/main::.*|Debugged program terminated|loaded source/` as a Boolean
line test (`findIndex` in `execute`). -/
def isExecuteMarker (s : String) : Bool :=
  strContains s "main::" || strContains s "Debugged program terminated" ||
    strContains s "loaded source"

/-- `/^No file matching '.*' is loaded./` (truthiness only). -/
def isNoFileMatching (s : String) : Bool :=
  (reMatchAt
    (Re.seqAll [Re.ofString "No file matching \x27", Re.starCls jsDot,
      Re.ofString "\x27 is loaded", Re.cls jsDot]) false s.toList).isSome

/-- `value.match(/^(ARRAY|HASH)/)` (group 1; `none` models a thrown
`TypeError` on the source's non-null assertion, which well-formed states
never hit). -/
def rootKind (value : String) : Option String :=
  if strStartsWith value "ARRAY" then some "ARRAY"
  else if strStartsWith value "HASH" then some "HASH"
  else none

/-- `value.match(/(^ARRAY|^HASH|.*)/)![1]`: the leftmost alternative wins, so
a value starting with `ARRAY`/`HASH` yields that tag and anything else is
captured whole by `.*` (dump values contain no line terminators). -/
def kindOrSelf (value : String) : String :=
  if strStartsWith value "ARRAY" then "ARRAY"
  else if strStartsWith value "HASH" then "HASH"
  else value

/-! ## Data model: variables, session state, engine interaction -/

/-- `DebugProtocol.Variable` (the fields the session reads or writes). -/
structure Variable where
  name : String
  value : String
  variablesReference : Int
  type : Option String := none
  evaluateName : Option String := none
  presentationHint : Option String := none
  indexedVariables : Option Nat := none
  namedVariables : Option Nat := none
deriving Repr, DecidableEq

/-- Association-list maps with JS `Map` get/set/delete semantics. -/
def mapGet {κ α : Type} [DecidableEq κ] (m : List (κ × α)) (k : κ) : Option α :=
  (m.find? (fun p => p.1 = k)).map (fun p => p.2)

def mapSet {κ α : Type} [DecidableEq κ] (m : List (κ × α)) (k : κ) (v : α) :
    List (κ × α) :=
  (k, v) :: m.filter (fun p => p.1 ≠ k)

def mapDel {κ α : Type} [DecidableEq κ] (m : List (κ × α)) (k : κ) :
    List (κ × α) :=
  m.filter (fun p => p.1 ≠ k)

/-- The variable-tree state of the session: the decrementing reference
counter (`currentVarRef`, initially 999) and the two handle maps.
`allocLog` is a ghost field recording, newest first, each handle assigned as
a node's `variablesReference`; it affects nothing else and exists to state
allocation properties. -/
structure VarState where
  currentVarRef : Int
  childVarsMap : List (Int × List Variable)
  parentVarsMap : List (Int × Variable)
  allocLog : List Int
deriving Repr, DecidableEq

def initVarState : VarState :=
  { currentVarRef := 999, childVarsMap := [], parentVarsMap := [],
    allocLog := [] }

/-- The state effect of `scopesRequest`: clear both maps and reset the
counter (the three top-level scope handles live in the separate
`_variableHandles` arena, outside this state). -/
def scopesRequestClear (_st : VarState) : VarState :=
  initVarState

/-- Events sent to the front end (the ones the claims mention). -/
inductive Event where
  | terminated : Event
  | stopped : String → Event
  | output : String → String → Event
deriving Repr, DecidableEq

/-- Commands sent to the engine, as structured data. -/
inductive EngineCmd where
  | dumpVar : String → EngineCmd
  | cont : EngineCmd
  | sleepHalf : EngineCmd
  | setBp : Int → Option String → EngineCmd
  | clearBp : Int → EngineCmd
  | fileCtx : String → EngineCmd
deriving Repr, DecidableEq

/-! ## The recursive dump parser (`parseDumper`) -/

/-- `matched[1].replace(/"/, '')`: delete the first double quote. -/
def dropFirstQuote (s : String) : String :=
  let rec go : List Char → List Char
    | [] => []
    | c :: rest => if c = '"' then rest else c :: go rest
  ⟨go s.toList⟩

/-- The container tag built from an `isVarEnd` match:
`(matched[1] === '}' ? 'HASH' : 'ARRAY')` plus the optional blessed class
name of group 3 (empty captures are falsy in JS). -/
def typeOfEnd (caps : Caps) : String :=
  let base := if (capGet caps 1).getD "" = "\x7d" then "HASH" else "ARRAY"
  if truthy (capGet caps 3) then base ++ " " ++ (capGet caps 3).getD ""
  else base

/-- The loop body of `parseDumper`, processing `lines` from the current
index with the running array index and collected children.  Returns the
final state, the source's `parsedLines` count (the stop index plus one),
`varType` and the children of this nesting level.  The recursive
`this.parseDumper(lines.slice(i + 1))` call of the source is inlined in the
two nested-open branches (reserve the current counter value as the child's
handle, decrement, parse, store the children under the handle).  The
`fuel` argument only makes the recursion structural: every call keeps
`fuel ≥ lines.length`, so the zero-fuel equation is never reached on a
nonempty list. -/
def parseDumperGo (st : VarState) (arrayIndex : Nat) (cv : List Variable) :
    Nat → List String → VarState × Nat × String × List Variable
  | _, [] => (st, 1, "", cv)
  | 0, _ :: _ => (st, 1, "", cv)
  | fuel + 1, l :: rest =>
    let line := jsTrim l
    match isVarEnd line with
    | some caps => (st, 1, typeOfEnd caps, cv)
    | none =>
      match isNamedVariable line with
      | some caps =>
        let v : Variable :=
          { name := dropFirstQuote ((capGet caps 1).getD ""),
            value := (capGet caps 2).getD "", variablesReference := 0,
            presentationHint := some "data", type := some "SCALAR" }
        let (st', n, ty, cv') :=
          parseDumperGo st arrayIndex (cv ++ [v]) fuel rest
        (st', n + 1, ty, cv')
      | none =>
        match isIndexedVariable line with
        | some caps =>
          let v : Variable :=
            { name := toString arrayIndex,
              value := (capGet caps 1).getD "", variablesReference := 0,
              presentationHint := some "data", type := some "SCALAR" }
          let (st', n, ty, cv') :=
            parseDumperGo st (arrayIndex + 1) (cv ++ [v]) fuel rest
          (st', n + 1, ty, cv')
        | none =>
          match isNestedArray line with
          | some _ =>
            let newRef := st.currentVarRef
            let st1 : VarState :=
              { st with currentVarRef := st.currentVarRef - 1,
                        allocLog := newRef :: st.allocLog }
            let (st2, n1, ty1, innerCv) := parseDumperGo st1 0 [] fuel rest
            let st3 : VarState :=
              { st2 with childVarsMap := mapSet st2.childVarsMap newRef innerCv }
            let newVar : Variable :=
              { name := toString arrayIndex, value := ty1,
                variablesReference := newRef,
                presentationHint := some "innerClass", type := some ty1,
                indexedVariables := some innerCv.length }
            let st4 : VarState :=
              { st3 with
                  parentVarsMap := mapSet st3.parentVarsMap newRef newVar }
            let (st5, n2, ty2, cv') :=
              parseDumperGo st4 (arrayIndex + 1) (cv ++ [newVar]) fuel
                (rest.drop n1)
            (st5, 1 + n1 + n2, ty2, cv')
          | none =>
            match isNestedHash line with
            | some caps =>
              let newRef := st.currentVarRef
              let st1 : VarState :=
                { st with currentVarRef := st.currentVarRef - 1,
                          allocLog := newRef :: st.allocLog }
              let (st2, n1, ty1, innerCv) := parseDumperGo st1 0 [] fuel rest
              let st3 : VarState :=
                { st2 with
                    childVarsMap := mapSet st2.childVarsMap newRef innerCv }
              let newVar : Variable :=
                { name := (capGet caps 1).getD "", value := ty1,
                  variablesReference := newRef,
                  presentationHint := some "innerClass", type := some ty1,
                  namedVariables := some innerCv.length }
              let st4 : VarState :=
                { st3 with
                    parentVarsMap := mapSet st3.parentVarsMap newRef newVar }
              let (st5, n2, ty2, cv') :=
                parseDumperGo st4 arrayIndex (cv ++ [newVar]) fuel
                  (rest.drop n1)
              (st5, 1 + n1 + n2, ty2, cv')
            | none =>
              let (st', n, ty, cv') := parseDumperGo st arrayIndex cv fuel rest
              (st', n + 1, ty, cv')

/-- `parseDumper(lines)`: reserve the current counter value as this block's
handle, decrement, run the loop, store the children.  Returns the new state
and the source's `{parsedLines, varType, numChildVars}` record. -/
def parseDumper (st : VarState) (lines : List String) :
    VarState × Nat × String × Nat :=
  let ref := st.currentVarRef
  let st1 : VarState := { st with currentVarRef := st.currentVarRef - 1 }
  let (st2, n, ty, cv) := parseDumperGo st1 0 [] lines.length lines
  ({ st2 with childVarsMap := mapSet st2.childVarsMap ref cv }, n, ty,
    cv.length)

/-! ## `parseVars`: batch variable parsing with re-entrancy recovery

The engine is modelled as the list of responses it will produce, consumed in
request order; a run is `none` when the code would block forever waiting for
a response that never comes.  The `errs` field of a run is a ghost counter of
how often the source's `catch`-and-`continue` recovery (which does
`this.currentVarRef++`) ran. -/

/-- `'@x'` is wrapped as `'[@x]'`, `'%x'` as `'{%x}'`. -/
def wrapVarName (v : String) : String :=
  if strStartsWith v "@" then "[" ++ v ++ "]"
  else if strStartsWith v "%" then "\x7b" ++ v ++ "\x7d"
  else v

/-- `(response).filter(e => e !== '').slice(1, -1)`. -/
def responseBody (resp : List String) : List String :=
  body (resp.filter (fun e => e ≠ ""))

inductive DumpLoopOut where
  /-- broke out of the loop: the head line matches `/^\$VAR1\s=\s.*/`. -/
  | okDump : List String → DumpLoopOut
  /-- `varDump[0]` was `undefined`: the `.match` call threw, landing in the
  first `catch` block. -/
  | errPath : DumpLoopOut
  /-- the output contained `Debugged program terminated.`. -/
  | term : DumpLoopOut
deriving Repr, DecidableEq

/-- The `while (true)` recovery loop of `parseVars`: keep continuing until
output is a proper dump, the program terminates, or the response shape
breaks the parser. -/
def dumpLoop (engine : List (List String)) (varDump : List String) :
    Option (List (List String) × List EngineCmd × DumpLoopOut) :=
  match varDump with
  | [] => some (engine, [], .errPath)
  | d0 :: _ =>
    if isVarDumpStart d0 then some (engine, [], .okDump varDump)
    else if strContains (String.intercalate "," varDump)
        "Debugged program terminated." then
      match engine with
      | [] => none
      | _ :: engine' => some (engine', [EngineCmd.sleepHalf], .term)
    else
      match engine with
      | [] => none
      | resp :: engine' =>
        match dumpLoop engine' (responseBody resp) with
        | none => none
        | some (engine'', cmds, out) =>
          some (engine'', EngineCmd.cont :: cmds, out)

/-- The parsing phase of one variable once a dump was collected
(`varDump[0]` matches `$VAR1`): either a single scalar line, or a structured
block handed to `parseDumper`; an `isVarEnd` mismatch on the last line makes
the source's non-null assertion throw into the second `catch`, which pushes
an `undef` variable (state changes made before the throw persist). -/
def parsePhase (st : VarState) (origName : String) (varDump : List String) :
    VarState × Variable :=
  let d0 := replaceFirstEq (varDump.headD "")
  let varDump' := d0 :: varDump.tail
  if (isNamedVariable d0).isSome ∧ varDump'.length = 1 then
    let caps := (isNamedVariable d0).getD []
    (st, { name := origName, value := (capGet caps 2).getD "",
           variablesReference := 0, evaluateName := some origName,
           presentationHint := some "data", type := some "SCALAR" })
  else
    let st1 : VarState := { st with currentVarRef := st.currentVarRef - 1 }
    let ref := st1.currentVarRef
    let st2 : VarState := { st1 with allocLog := ref :: st1.allocLog }
    let (st3, _, _, _) := parseDumper st2 (body varDump')
    match isVarEnd (jsTrim (varDump'.getLastD "")) with
    | none =>
      (st3, { name := origName, value := "undef", variablesReference := 0,
              presentationHint := some "data", type := some "UNDEF" })
    | some caps =>
      let ty := typeOfEnd caps
      let cnt := ((mapGet st3.childVarsMap ref).getD []).length
      let newVar : Variable :=
        { name := origName, value := ty, variablesReference := ref,
          evaluateName := some origName, presentationHint := some "baseClass",
          namedVariables := if strStartsWith ty "HASH" then some cnt else none,
          indexedVariables :=
            if strStartsWith ty "ARRAY" then some cnt else none }
      ({ st3 with parentVarsMap := mapSet st3.parentVarsMap ref newVar },
        newVar)

/-- The state of one `parseVars` run. -/
structure VarRun where
  st : VarState
  engine : List (List String)
  cmds : List EngineCmd
  events : List Event
  errs : Nat
  vs : List Variable
deriving Repr, DecidableEq

/-- The `for` loop over `varNames`.  A termination sentinel during the
recovery loop aborts the whole request, returning only
`new Variable(varName, '')` (the wrapped name) and raising the terminated
event. -/
def parseVarsGo (r : VarRun) : List String → Option VarRun
  | [] => some r
  | name :: rest =>
    let varName := wrapVarName name
    match r.engine with
    | [] => none
    | resp :: engine' =>
      match dumpLoop engine' (responseBody resp) with
      | none => none
      | some (engine'', loopCmds, out) =>
        let r1 : VarRun :=
          { r with engine := engine'',
                   cmds := r.cmds ++ EngineCmd.dumpVar varName :: loopCmds }
        match out with
        | .errPath =>
          parseVarsGo
            { r1 with
                st := { r1.st with
                          currentVarRef := r1.st.currentVarRef + 1 },
                errs := r1.errs + 1 } rest
        | .term =>
          some { r1 with events := r1.events ++ [Event.terminated],
                         vs := [{ name := varName, value := "",
                                  variablesReference := 0 }] }
        | .okDump varDump =>
          let (st', v) := parsePhase r1.st name varDump
          parseVarsGo { r1 with st := st', vs := r1.vs ++ [v] } rest

/-- `parseVars(varNames)` against an engine response list. -/
def parseVars (st : VarState) (engine : List (List String))
    (names : List String) : Option VarRun :=
  parseVarsGo
    { st := st, engine := engine, cmds := [], events := [], errs := 0,
      vs := [] } names

/-! ## The expression reconstructor (`getExpression`) -/

/-- The `while` loop of `getExpression`: scan ids upward from the queried
reference; whenever the owner of the current id exists and its child list
contains the chain's current head, that owner is the next ancestor.  The
source loops until `parentVarsMap.get(id)` is `undefined`; the fuel below is
chosen past the largest key, after which every lookup misses, so the
modelled loop agrees with the source whenever the fuel covers the scan. -/
def collectParents : Nat → VarState → Int → Variable → List Variable →
    List Variable
  | 0, _, _, _, acc => acc
  | fuel + 1, st, id, lastParent, acc =>
    match mapGet st.parentVarsMap id with
    | none => acc
    | some parent =>
      let childsOfParent := (mapGet st.childVarsMap id).getD []
      if childsOfParent.contains lastParent then
        collectParents fuel st (id + 1) parent (acc ++ [parent])
      else
        collectParents fuel st (id + 1) lastParent acc

/-- An upper bound on the keys of `parentVarsMap`. -/
def parentKeyBound (m : List (Int × Variable)) : Int :=
  m.foldr (fun p acc => max p.1 acc) 0

/-- Enough fuel for the scan: once `id` exceeds every key the loop stops. -/
def collectFuel (st : VarState) (id : Int) : Nat :=
  ((parentKeyBound st.parentVarsMap + 2) - id).toNat

/-- The base expression built from the root's name: `$x` becomes `$x->`,
an aggregate sigil (the source's class `[%|@]` also admits `|`) is replaced
by `$`, anything else is kept. -/
def rootBase (name : String) : String :=
  if strStartsWith name "$" then name ++ "->"
  else if strStartsWith name "%" ∨ strStartsWith name "|" ∨ strStartsWith name "@"
  then "$" ++ ⟨name.toList.tail⟩
  else name

/-- The descending accessor loop: `currentType` is the previous node's
recorded kind; `ARRAY` appends `[name]`, `HASH` appends `{'name'}` with an
arrow when the expression already ends in `]`, and an unrecognized kind is
logged and leaves the expression unchanged. -/
def buildSteps : String → String → List Variable → String
  | _, e, [] => e
  | currentType, e, v :: rest =>
    let e' :=
      if currentType = "ARRAY" then e ++ "[" ++ v.name ++ "]"
      else if currentType = "HASH" then
        (if strEndsWith e "]" then e ++ "->" else e) ++ "\x7b\x27" ++ v.name ++
          "\x27\x7d"
      else e
    buildSteps (kindOrSelf v.value) e' rest

/-- `getExpression(id, expression)`.  The source's initial
`parentVars[last].value.match(/^(ARRAY|HASH)/)![1]` throws on a
non-container root; the model uses `""` there, a case excluded by the
well-formedness hypotheses of the theorems. -/
def getExpression (st : VarState) (id : Int) (expression : String) : String :=
  match (mapGet st.childVarsMap id).bind
      (fun l => l.find? (fun e => e.name = expression)) with
  | none => expression
  | some lastParent =>
    let parentVars :=
      collectParents (collectFuel st id) st id lastParent [lastParent]
    let root := parentVars.getLastD lastParent
    let ct0 := (rootKind root.value).getD ""
    buildSteps ct0 (rootBase root.name) parentVars.reverse.tail

/-! ## The breakpoint registry

The engine's replies to `b <line> <condition>` are abstracted by a predicate
`nb : Int → Bool` (`nb line` iff the response contains `not breakable`);
replies to `f <path>` by a function `engineF : String → List String` giving
the response lines. -/

structure BpData where
  line : Int
  id : Nat
  condition : String
deriving Repr, DecidableEq

/-- `DebugProtocol.SourceBreakpoint` (the fields the source reads). -/
structure SourceBp where
  line : Int
  condition : Option String := none
deriving Repr, DecidableEq

/-- A DAP `Breakpoint` as the source constructs it (`setId` is only called
on the active path). -/
structure BreakpointOut where
  verified : Bool
  line : Int
  id : Option Nat := none
  source : String
deriving Repr, DecidableEq

structure BpState where
  currentBreakpointID : Nat
  breakpointsMap : List (String × List BpData)
  postponedBreakpoints : List (String × List BpData)
deriving Repr, DecidableEq

/-- The session's initial breakpoint state (constructor defaults). -/
def initBpState : BpState :=
  { currentBreakpointID := 1, breakpointsMap := [], postponedBreakpoints := [] }

def maxBreakpointTries : Nat := 10

/-- `normalizePathAndCasing` on a POSIX host: `replace(/\\/g, '/')`. -/
def normalizePathAndCasing (path : String) : String :=
  ⟨path.toList.map (fun c => if c = '\\' then '/' else c)⟩

/-- The retry loop of `setBreakpointsInFile` for one requested breakpoint:
while unsuccessful and tries remain, send `b <line> <condition>`; a
`not breakable` reply advances the line.  Returns the final line, the
success flag and the commands sent (one per attempt). -/
def bpTry (nb : Int → Bool) (cond : Option String) :
    Nat → Int → Int × Bool × List EngineCmd
  | 0, line => (line, false, [])
  | tries + 1, line =>
    if nb line then
      let (l', s', cmds) := bpTry nb cond tries (line + 1)
      (l', s', EngineCmd.setBp line cond :: cmds)
    else (line, true, [EngineCmd.setBp line cond])

/-- The per-breakpoint loop of `setBreakpointsInFile`, threading
`currentBreakpointID`. -/
def setBpsGo (nb : Int → Bool) (filePath : String) :
    List SourceBp → Nat →
    List BreakpointOut × List BpData × List EngineCmd × Nat
  | [], bpId => ([], [], [], bpId)
  | bp :: rest, bpId =>
    let (line, success, cmds) := bpTry nb bp.condition maxBreakpointTries
      bp.line
    let (outs, datas, cmds', bpId') := setBpsGo nb filePath rest (bpId + 1)
    ({ verified := success, line := line, id := some bpId,
       source := filePath } :: outs,
      { id := bpId, line := line, condition := bp.condition.getD "" } ::
        datas,
      cmds ++ cmds', bpId')

/-- `setBreakpointsInFile(filePath, bps)`: set each breakpoint with the
retry policy, record the batch in `breakpointsMap`, and clear the postponed
entry for the file. -/
def setBreakpointsInFile (nb : Int → Bool) (st : BpState) (filePath : String)
    (bps : List SourceBp) : BpState × List BreakpointOut × List EngineCmd :=
  let (outs, datas, cmds, bpId') :=
    setBpsGo nb filePath bps st.currentBreakpointID
  let key := normalizePathAndCasing filePath
  ({ currentBreakpointID := bpId',
     breakpointsMap := mapSet st.breakpointsMap key datas,
     postponedBreakpoints := mapDel st.postponedBreakpoints key },
    outs, cmds)

/-- `replace(/\\{1,2}/g, '/')`: each run of one or two backslashes becomes
one slash. -/
def collapseBackslashes (s : String) : String :=
  let rec go : List Char → List Char
    | [] => []
    | '\\' :: '\\' :: rest => '/' :: go rest
    | '\\' :: rest => '/' :: go rest
    | c :: rest => c :: go rest
  ⟨go s.toList⟩

/-- `replace(/^\.\.\/+/g, '')`: strip a leading `..` followed by one or
more slashes (anchored, so at most one replacement). -/
def stripLeadingDotDot (s : String) : String :=
  match s.toList with
  | '.' :: '.' :: '/' :: rest => ⟨rest.dropWhile (fun c => c = '/')⟩
  | _ => s

/-- `path.basename` for the POSIX forward-slash paths produced above. -/
def posixBasename (s : String) : String :=
  ⟨(s.toList.reverse.takeWhile (fun c => c ≠ '/')).reverse⟩

/-- `changeFileContext(filePath)`: format the path, try `f <path>`, and on a
`No file matching` reply retry with the basename; returns the path on
success together with the commands sent.  `data` is the second response
line (`(await this.request(...))[1]`). -/
def changeFileContext (engineF : String → List String) (filePath : String) :
    Option String × List EngineCmd :=
  let fp := stripLeadingDotDot (collapseBackslashes filePath)
  let data := (engineF fp).getD 1 ""
  if isNoFileMatching data then
    let fp2 := posixBasename fp
    let data2 := (engineF fp2).getD 1 ""
    if isNoFileMatching data2 then
      (none, [EngineCmd.fileCtx fp, EngineCmd.fileCtx fp2])
    else (some fp2, [EngineCmd.fileCtx fp, EngineCmd.fileCtx fp2])
  else (some fp, [EngineCmd.fileCtx fp])

/-- `removeBreakpointsInFile(filePath)`: if records exist and the context
switch succeeds, clear each with `B <line>`; the map entry is removed
either way.  JS short-circuiting: with no records, no `f` command is
sent. -/
def removeBreakpointsInFile (engineF : String → List String) (st : BpState)
    (filePath : String) : BpState × List EngineCmd :=
  let scriptPath := normalizePathAndCasing filePath
  match mapGet st.breakpointsMap scriptPath with
  | none =>
    ({ st with breakpointsMap := mapDel st.breakpointsMap scriptPath }, [])
  | some bps =>
    let (ctx, cmds) := changeFileContext engineF scriptPath
    let clears :=
      if ctx.isSome then bps.map (fun b => EngineCmd.clearBp b.line) else []
    ({ st with breakpointsMap := mapDel st.breakpointsMap scriptPath },
      cmds ++ clears)

/-- The postponing branch of `setBreakPointsRequest` (runtime inactive or
file not loaded): store the requests under the normalized path and report
each one verified at its requested line, sending nothing. -/
def postponeGo (scriptPath : String) :
    List SourceBp → Nat → List BreakpointOut × List BpData × Nat
  | [], bpId => ([], [], bpId)
  | bp :: rest, bpId =>
    let (outs, datas, bpId') := postponeGo scriptPath rest (bpId + 1)
    ({ verified := true, line := bp.line, source := scriptPath } :: outs,
      { id := bpId, line := bp.line, condition := bp.condition.getD "" } ::
        datas, bpId')

def postponeBps (st : BpState) (scriptPath : String)
    (argBps : List SourceBp) : BpState × List BreakpointOut :=
  let (outs, datas, bpId') := postponeGo scriptPath argBps
    st.currentBreakpointID
  ({ st with currentBreakpointID := bpId',
             postponedBreakpoints := mapSet st.postponedBreakpoints
               (normalizePathAndCasing scriptPath) datas }, outs)

/-- `setBreakPointsRequest`: `active` models `isActive()`; the body resets
`currentBreakpointID` to 1, then either clears and re-sets the file's
breakpoints in the engine, or postpones them. -/
def setBreakPointsRequest (nb : Int → Bool) (active : Bool)
    (engineF : String → List String) (st : BpState) (scriptPath : String)
    (argBps : List SourceBp) : BpState × List BreakpointOut × List EngineCmd :=
  let st0 : BpState := { st with currentBreakpointID := 1 }
  if active then
    let (ctx, ctxCmds) := changeFileContext engineF scriptPath
    match ctx with
    | some _ =>
      let (st1, rmCmds) := removeBreakpointsInFile engineF st0 scriptPath
      let (st2, outs, setCmds) := setBreakpointsInFile nb st1 scriptPath
        argBps
      (st2, outs, ctxCmds ++ rmCmds ++ setCmds)
    | none =>
      let (st1, outs) := postponeBps st0 scriptPath argBps
      (st1, outs, ctxCmds)
  else
    let (st1, outs) := postponeBps st0 scriptPath argBps
    (st1, outs, [])

/-! ## The execution controller (`execute`)

`execute(cmd)` sends one control command and classifies the response.  The
model takes the response lines for that command as input; `cmds` records the
follow-up commands it sends (the drain `sleep(.5)` and breakpoint commands
for a newly loaded file), `currentLine` abstracts the `T` stack query used
by the breakpoint-coincidence check, and `resume` is true when the source
would issue a fresh `continue()`. -/

structure ExecResult where
  events : List Event
  cmds : List EngineCmd
  st : BpState
  resume : Bool
deriving Repr, DecidableEq

/-- `path.join(cwd, p)` for the claims' non-degenerate paths. -/
def joinPath (cwd p : String) : String :=
  cwd ++ "/" ++ p

/-- TypeScript passes the stored `IBreakpointData[]` structurally where
`SourceBreakpoint[]` is expected (`execute`, `launchRequest`); only `line`
and `condition` are read. -/
def bpDataToSourceBp (b : BpData) : SourceBp :=
  { line := b.line, condition := some b.condition }

/-- The newly-loaded-source block of `execute`: extract and normalize the
path, apply its postponed breakpoints if any, and report whether one of
them sits on the current line. -/
def loadedSourceApply (nb : Int → Bool) (currentLine : Int) (cwd : String)
    (st : BpState) (newSource : String) :
    BpState × List EngineCmd × Bool :=
  match loadedSourcePath newSource with
  | none => (st, [], false)
  | some p0 =>
    let p1 := if strStartsWith p0 "." then joinPath cwd p0 else p0
    let scriptPath := normalizePathAndCasing p1
    match mapGet st.postponedBreakpoints scriptPath with
    | none => (st, [], false)
    | some bps =>
      let (st', _, setCmds) := setBreakpointsInFile nb st scriptPath
        (bps.map bpDataToSourceBp)
      (st', setCmds, bps.any (fun b => b.line = currentLine))

def execute (nb : Int → Bool) (currentLine : Int) (cwd : String)
    (st : BpState) (cmd : String) (lines : List String) : ExecResult :=
  let idx : Int :=
    match lines.findIdx? isExecuteMarker with
    | none => -1
    | some i => (i : Int)
  let scriptOutput := jsSlice lines 1 idx
  let ev0 : List Event :=
    if (scriptOutput.filter (fun e => e ≠ "")).length > 0 then
      [Event.output "stderr" (String.intercalate "\n" scriptOutput)]
    else []
  if strContains (String.intercalate "," lines)
      "Debugged program terminated." then
    { events := ev0 ++ [Event.terminated], cmds := [EngineCmd.sleepHalf],
      st := st, resume := false }
  else
    match lines.find? (fun ln => strContains ln "loaded source") with
    | some newSource =>
      let (st1, cmds1, coincide) :=
        loadedSourceApply nb currentLine cwd st newSource
      if coincide then
        { events := ev0 ++ [Event.stopped "breakpoint"], cmds := cmds1,
          st := st1, resume := false }
      else if strStartsWith newSource "continue" ∧ (cmd = "n" ∨ cmd = "c") then
        { events := ev0, cmds := cmds1, st := st1, resume := true }
      else
        { events := ev0 ++ [Event.stopped "new source"], cmds := cmds1,
          st := st1, resume := false }
    | none =>
      { events :=
          ev0 ++ [Event.stopped (if cmd = "c" then "breakpoint" else "step")],
        cmds := [], st := st, resume := false }

/-- The `stdout` data listener installed at launch: forwards every chunk as
an output event (`stripCtl` abstracts the `ansiSeq` strip). -/
def stdoutDataHandler (stripCtl : String → String) (data : String) : Event :=
  Event.output "stdout" (stripCtl data)

/-- The postponed-breakpoint loop of `launchRequest`: for each postponed
file (keys snapshot; `setBreakpointsInFile` deletes only the key it
processes), switch the context and, if both the entry and the switch
succeed, apply the breakpoints. -/
def launchApplyGo (nb : Int → Bool) (engineF : String → List String) :
    BpState → List String → BpState × List EngineCmd
  | st, [] => (st, [])
  | st, k :: rest =>
    let bps := mapGet st.postponedBreakpoints k
    let (ctx, ctxCmds) := changeFileContext engineF k
    match bps, ctx with
    | some bps', some _ =>
      let (st', _, setCmds) := setBreakpointsInFile nb st k
        (bps'.map bpDataToSourceBp)
      let (st'', cmds'') := launchApplyGo nb engineF st' rest
      (st'', ctxCmds ++ setCmds ++ cmds'')
    | _, _ =>
      let (st'', cmds'') := launchApplyGo nb engineF st rest
      (st'', ctxCmds ++ cmds'')

def launchApplyPostponed (nb : Int → Bool) (engineF : String → List String)
    (st : BpState) : BpState × List EngineCmd :=
  launchApplyGo nb engineF st (st.postponedBreakpoints.map (fun p => p.1))

/-! ## The Request/Response Correlator

Modelled from the spec: `src/streamCatcher.ts` (the `StreamCatcher`
transport/correlator behind `request()`) is not among the provided sources,
so its queue discipline is modelled from spec sections 4.1/4.2: `request`
enqueues a command; a command is written only when no other is in flight;
arriving output lines are buffered for the single in-flight command until a
line matches the prompt/terminator pattern, at which point the buffered
lines are delivered to that command's caller and the next queued command is
sent.  Requests are numbered in submission order.  `attrib` is a ghost log
recording which command each buffered line was attributed to. -/

structure CorrState where
  nextId : Nat
  queue : List (Nat × String)
  inflight : List (Nat × String × List String)
  delivered : List (Nat × List String)
  attrib : List (Nat × String)
deriving Repr, DecidableEq

inductive CorrEv where
  | submit : String → CorrEv
  | line : String → CorrEv
deriving Repr, DecidableEq

def corrInit : CorrState :=
  { nextId := 0, queue := [], inflight := [], delivered := [], attrib := [] }

/-- One transition of the correlator; `prompt` recognizes the REPL
terminator line. -/
def corrStep (prompt : String → Bool) (st : CorrState) : CorrEv → CorrState
  | .submit cmd =>
    match st.inflight with
    | [] =>
      { st with nextId := st.nextId + 1,
                inflight := [(st.nextId, cmd, [])] }
    | _ =>
      { st with nextId := st.nextId + 1,
                queue := st.queue ++ [(st.nextId, cmd)] }
  | .line s =>
    match st.inflight with
    | [] => st
    | (id, cmd, buf) :: tl =>
      if prompt s then
        let st' :=
          { st with delivered := st.delivered ++ [(id, buf ++ [s])],
                    attrib := st.attrib ++ [(id, s)] }
        match st.queue with
        | [] => { st' with inflight := tl, queue := [] }
        | (id2, c2) :: q' =>
          { st' with inflight := (id2, c2, []) :: tl, queue := q' }
      else
        { st with inflight := (id, cmd, buf ++ [s]) :: tl,
                  attrib := st.attrib ++ [(id, s)] }

/-- A whole trace of submissions and output lines. -/
def corrRun (prompt : String → Bool) (evs : List CorrEv) : CorrState :=
  evs.foldl (corrStep prompt) corrInit

/-! ## Theorems -/

theorem bpTry_found (nb : Int → Bool) (cond : Option String) :
    ∀ (t k : Nat) (N : Int), k < t →
    (∀ j : Nat, j < k → nb (N + j) = true) → nb (N + k) = false →
    bpTry nb cond t N =
      (N + k, true,
        (List.range (k + 1)).map
          (fun j : Nat => EngineCmd.setBp (N + (j : Int)) cond)) := by
  intro t
  induction t with
  | zero => intro k N hk; omega
  | succ t ih =>
    intro k N hk hall hstop
    match k with
    | 0 =>
      have h0 : nb N = false := by simpa using hstop
      simp [bpTry, h0, List.range_succ]
    | k + 1 =>
      have h0 : nb N = true := by simpa using hall 0 (by omega)
      have hrec := ih k (N + 1) (by omega)
        (fun j hj => by
          have := hall (j + 1) (by omega)
          push_cast at this ⊢
          convert this using 2
          ring)
        (by
          push_cast at hstop ⊢
          convert hstop using 2
          ring)
      have hcmds :
          EngineCmd.setBp N cond ::
            (List.range (k + 1)).map
              (fun j : Nat => EngineCmd.setBp (N + 1 + (j : Int)) cond) =
          (List.range (k + 2)).map
            (fun j : Nat => EngineCmd.setBp (N + (j : Int)) cond) := by
        conv_rhs => rw [List.range_succ_eq_map, List.map_cons, List.map_map]
        congr 1
        · norm_num
        · apply List.map_congr_left
          intro j _
          simp only [Function.comp_apply]
          congr 1
          push_cast
          ring
      simp only [bpTry, h0, if_true, hrec, Prod.mk.injEq]
      refine ⟨by push_cast; ring, trivial, ?_⟩
      rw [← hcmds]

theorem bpTry_exhaust (nb : Int → Bool) (cond : Option String) :
    ∀ (t : Nat) (N : Int), (∀ j : Nat, j < t → nb (N + j) = true) →
    bpTry nb cond t N =
      (N + t, false,
        (List.range t).map
          (fun j : Nat => EngineCmd.setBp (N + (j : Int)) cond)) := by
  intro t
  induction t with
  | zero => intro N _; simp [bpTry]
  | succ t ih =>
    intro N hall
    have h0 : nb N = true := by simpa using hall 0 (by omega)
    have hrec := ih (N + 1) (fun j hj => by
      have := hall (j + 1) (by omega)
      push_cast at this ⊢
      convert this using 2
      ring)
    have hcmds :
        EngineCmd.setBp N cond ::
          (List.range t).map
            (fun j : Nat => EngineCmd.setBp (N + 1 + (j : Int)) cond) =
        (List.range (t + 1)).map
          (fun j : Nat => EngineCmd.setBp (N + (j : Int)) cond) := by
      conv_rhs => rw [List.range_succ_eq_map, List.map_cons, List.map_map]
      congr 1
      · norm_num
      · apply List.map_congr_left
        intro j _
        simp only [Function.comp_apply]
        congr 1
        push_cast
        ring
    simp only [bpTry, h0, if_true, hrec, Prod.mk.injEq]
    refine ⟨by push_cast; ring, trivial, ?_⟩
    rw [← hcmds]

theorem setBpsGo_proj (nb : Int → Bool) (f : String) :
    ∀ (bps : List SourceBp) (i : Nat),
    (setBpsGo nb f bps i).1.map (fun r => (r.line, r.verified)) =
      bps.map (fun b =>
        ((bpTry nb b.condition maxBreakpointTries b.line).1,
          (bpTry nb b.condition maxBreakpointTries b.line).2.1)) := by
  intro bps
  induction bps with
  | nil => intro i; simp [setBpsGo]
  | cons bp rest ih =>
    intro i
    simp only [setBpsGo, List.map_cons]
    rw [ih (i + 1)]

/-- C2: every breakpoint requested at line `N` in `setBreakpointsInFile`
follows the retry loop: its reported line and success flag are those of
`bpTry` on its requested line; when the first breakable line at or after `N`
is reached within the budget the loop stops there successfully (one `b`
command per attempt), and when lines `N..N+9` are all non-breakable the
breakpoint is reported failed at `N+10` after exactly ten attempts. -/
theorem breakpointRetryPolicy (nb : Int → Bool) (st : BpState) (f : String)
    (bps : List SourceBp) :
    ((setBreakpointsInFile nb st f bps).2.1.map
        (fun r => (r.line, r.verified)) =
      bps.map (fun b =>
        ((bpTry nb b.condition maxBreakpointTries b.line).1,
          (bpTry nb b.condition maxBreakpointTries b.line).2.1)))
    ∧ (∀ (N : Int) (k : Nat) (cond : Option String), k < maxBreakpointTries →
        (∀ j : Nat, j < k → nb (N + j) = true) → nb (N + k) = false →
        bpTry nb cond maxBreakpointTries N = (N + k, true,
          (List.range (k + 1)).map
            (fun j : Nat => EngineCmd.setBp (N + (j : Int)) cond)))
    ∧ (∀ (N : Int) (cond : Option String),
        (∀ j : Nat, j < maxBreakpointTries → nb (N + j) = true) →
        bpTry nb cond maxBreakpointTries N = (N + 10, false,
          (List.range 10).map
            (fun j : Nat => EngineCmd.setBp (N + (j : Int)) cond))) := by
  refine ⟨?_, ?_, ?_⟩
  · simpa [setBreakpointsInFile] using
      setBpsGo_proj nb f bps st.currentBreakpointID
  · intro N k cond hk hall hstop
    exact bpTry_found nb cond maxBreakpointTries k N hk hall hstop
  · intro N cond hall
    have h := bpTry_exhaust nb cond maxBreakpointTries N hall
    simpa [maxBreakpointTries] using h

/-- C2 witness: the spec's example — lines 5–7 non-breakable, line 8
breakable — resolves to a verified breakpoint at line 8 in four attempts. -/
theorem breakpointRetryPolicy_witness :
    bpTry (fun l => decide (l < 8)) none maxBreakpointTries 5 =
      (8, true,
        [EngineCmd.setBp 5 none, EngineCmd.setBp 6 none,
         EngineCmd.setBp 7 none, EngineCmd.setBp 8 none]) := by
  have h := (breakpointRetryPolicy (fun l => decide (l < 8)) initBpState ""
    []).2.1 5 3 none (by decide)
    (fun j hj => by interval_cases j <;> decide) (by decide)
  simpa [List.range_succ] using h

theorem postponeGo_proj (scriptPath : String) :
    ∀ (argBps : List SourceBp) (i : Nat),
    (postponeGo scriptPath argBps i).1 =
      argBps.map (fun bp =>
        ({ verified := true, line := bp.line, source := scriptPath } :
          BreakpointOut))
    ∧ (postponeGo scriptPath argBps i).2.1.map (fun d => d.line) =
      argBps.map (fun bp => bp.line) := by
  intro argBps
  induction argBps with
  | nil => intro i; simp [postponeGo]
  | cons bp rest ih =>
    intro i
    simp only [postponeGo, List.map_cons]
    exact ⟨by rw [(ih (i + 1)).1], by rw [(ih (i + 1)).2]⟩

/-- C10 counterexample: with the runtime active but the target file not
loaded (`changeFileContext` fails twice), the postponing branch is taken,
yet two `f` probe commands were already sent to the engine — so "no command
was sent to the engine" fails in this case. -/
theorem postponedVerifiedCounterexample :
    (changeFileContext
        (fun _ => ["f", "No file matching \x27x.pl\x27 is loaded."])
        "x.pl").1 = none
    ∧ (setBreakPointsRequest (fun _ => false) true
        (fun _ => ["f", "No file matching \x27x.pl\x27 is loaded."])
        initBpState "x.pl" [{ line := 5 }]).2.2 =
      [EngineCmd.fileCtx "x.pl", EngineCmd.fileCtx "x.pl"]
    ∧ ((setBreakPointsRequest (fun _ => false) true
        (fun _ => ["f", "No file matching \x27x.pl\x27 is loaded."])
        initBpState "x.pl" [{ line := 5 }]).2.2 ≠ []) := by
  refine ⟨by decide, by decide, by decide⟩

theorem changeFileContext_cmds (engineF : String → List String)
    (path : String) :
    ∀ c ∈ (changeFileContext engineF path).2, ∃ p, c = EngineCmd.fileCtx p := by
  intro c hc
  simp only [changeFileContext] at hc
  split at hc
  · split at hc
    · simp only [List.mem_cons, List.mem_singleton, List.not_mem_nil,
        or_false] at hc
      rcases hc with hc | hc <;> exact ⟨_, hc⟩
    · simp only [List.mem_cons, List.mem_singleton, List.not_mem_nil,
        or_false] at hc
      rcases hc with hc | hc <;> exact ⟨_, hc⟩
  · simp only [List.mem_singleton] at hc
    exact ⟨_, hc⟩

/-- C10 (amended): whenever the postponing branch runs (runtime inactive,
or the file-context switch fails), every requested breakpoint is reported
verified at its originally requested line, the requests are only stored in
the postponed map, and no breakpoint command is sent (when the runtime is
inactive no command at all; when it is active but the file is not loaded,
only the two file-context probes). -/
theorem postponedBreakpointsReportedVerified (nb : Int → Bool)
    (active : Bool) (engineF : String → List String) (st : BpState)
    (path : String) (argBps : List SourceBp)
    (h : active = false ∨ (changeFileContext engineF path).1 = none) :
    ((setBreakPointsRequest nb active engineF st path argBps).2.1 =
      argBps.map (fun bp =>
        ({ verified := true, line := bp.line, source := path } :
          BreakpointOut)))
    ∧ ((mapGet (setBreakPointsRequest nb active engineF st path
          argBps).1.postponedBreakpoints
        (normalizePathAndCasing path)).map (fun l => l.map (fun d => d.line))
        = some (argBps.map (fun bp => bp.line)))
    ∧ (∀ c ∈ (setBreakPointsRequest nb active engineF st path argBps).2.2,
        ∃ p, c = EngineCmd.fileCtx p)
    ∧ (active = false →
        (setBreakPointsRequest nb active engineF st path argBps).2.2 = []) := by
  have hpost := postponeGo_proj path argBps
    (({ st with currentBreakpointID := 1 } : BpState).currentBreakpointID)
  cases active with
  | false =>
    simp only [setBreakPointsRequest, Bool.false_eq_true, if_false,
      postponeBps]
    refine ⟨hpost.1, ?_, ?_, fun _ => trivial⟩
    · simp [mapGet, mapSet, hpost.2]
    · intro c hc
      simp at hc
  | true =>
    have hnone : (changeFileContext engineF path).1 = none := by
      rcases h with h | h
      · exact absurd h (by simp)
      · exact h
    have hcmds := changeFileContext_cmds engineF path
    rcases hcf : changeFileContext engineF path with ⟨ctx, ctxCmds⟩
    rw [hcf] at hnone
    simp only at hnone
    subst hnone
    rw [hcf] at hcmds
    simp only at hcmds
    simp only [setBreakPointsRequest, if_true, hcf, postponeBps]
    refine ⟨hpost.1, ?_, ?_, ?_⟩
    · simp [mapGet, mapSet, hpost.2]
    · exact hcmds
    · intro hfalse
      exact absurd hfalse (by simp)

/-- C10 witness: a concrete inactive-runtime request. -/
theorem postponedBreakpointsReportedVerified_witness :
    ((setBreakPointsRequest (fun _ => false) false (fun _ => []) initBpState
        "a.pl" [{ line := 3 }]).2.1 =
      [({ verified := true, line := 3, source := "a.pl" } : BreakpointOut)])
    ∧ ((mapGet (setBreakPointsRequest (fun _ => false) false (fun _ => [])
          initBpState "a.pl" [{ line := 3 }]).1.postponedBreakpoints
        (normalizePathAndCasing "a.pl")).map (fun l => l.map (fun d => d.line))
        = some [3])
    ∧ (∀ c ∈ (setBreakPointsRequest (fun _ => false) false (fun _ => [])
        initBpState "a.pl" [{ line := 3 }]).2.2,
        ∃ p, c = EngineCmd.fileCtx p)
    ∧ (false = false →
        (setBreakPointsRequest (fun _ => false) false (fun _ => [])
          initBpState "a.pl" [{ line := 3 }]).2.2 = []) := by
  simpa using postponedBreakpointsReportedVerified (fun _ => false) false
    (fun _ => []) initBpState "a.pl" [{ line := 3 }] (Or.inl rfl)

/-- C8: a continue command whose response contains the
`Debugged program terminated.` sentinel yields exactly one terminated event
and no stopped event; the only follow-up command is the `sleep(.5)` drain
(the grace delay before closing), no auto-resume happens, and later stdout
data only ever produces output events, never a second termination. -/
theorem continueTerminationOnce (nb : Int → Bool) (currentLine : Int)
    (cwd : String) (st : BpState) (lines : List String)
    (h : strContains (String.intercalate "," lines)
      "Debugged program terminated." = true) :
    ((execute nb currentLine cwd st "c" lines).events.count Event.terminated
      = 1)
    ∧ (∀ reason,
        Event.stopped reason ∉ (execute nb currentLine cwd st "c" lines).events)
    ∧ ((execute nb currentLine cwd st "c" lines).cmds = [EngineCmd.sleepHalf])
    ∧ ((execute nb currentLine cwd st "c" lines).resume = false)
    ∧ (∀ (stripCtl : String → String) (data : String),
        stdoutDataHandler stripCtl data ≠ Event.terminated ∧
        ∀ reason, stdoutDataHandler stripCtl data ≠ Event.stopped reason) := by
  simp only [execute, h, if_true]
  refine ⟨?_, ?_, trivial, trivial, ?_⟩
  · split
    · simp [List.count_append, List.count_cons, List.count_nil]
    · simp [List.count_append, List.count_cons, List.count_nil]
  · intro reason
    split
    · simp
    · simp
  · intro stripCtl data
    exact ⟨by simp [stdoutDataHandler], fun reason => by
      simp [stdoutDataHandler]⟩

/-- C8 witness: a concrete terminating continue response. -/
theorem continueTerminationOnce_witness :
    ((execute (fun _ => false) 0 "/w" initBpState "c"
        ["c", "Debugged program terminated.", "  DB<1> "]).events.count
      Event.terminated = 1)
    ∧ (∀ reason, Event.stopped reason ∉
        (execute (fun _ => false) 0 "/w" initBpState "c"
          ["c", "Debugged program terminated.", "  DB<1> "]).events) := by
  have h := continueTerminationOnce (fun _ => false) 0 "/w" initBpState
    ["c", "Debugged program terminated.", "  DB<1> "] (by decide)
  exact ⟨h.1, h.2.1⟩

/-- C7: when a step/continue response reports a newly loaded source, the
program has not terminated, and the current position does not coincide with
a newly applied breakpoint, the adapter auto-resumes (a fresh continue) if
and only if the loaded-source line carries the engine's `continue` marker
AND the triggering command was continue (`c`) or step-over (`n`); otherwise
(step-in `s`, step-out `r`, or no marker) it stops with reason
`new source`. -/
theorem newSourceAutoResume (nb : Int → Bool) (currentLine : Int)
    (cwd : String) (st : BpState) (cmd : String) (lines : List String)
    (ns : String)
    (hterm : strContains (String.intercalate "," lines)
      "Debugged program terminated." = false)
    (hns : lines.find? (fun ln => strContains ln "loaded source") = some ns)
    (hcoin : (loadedSourceApply nb currentLine cwd st ns).2.2 = false) :
    ((execute nb currentLine cwd st cmd lines).resume = true ↔
      (strStartsWith ns "continue" = true ∧ (cmd = "n" ∨ cmd = "c")))
    ∧ ((execute nb currentLine cwd st cmd lines).resume = false →
        Event.stopped "new source" ∈
          (execute nb currentLine cwd st cmd lines).events) := by
  rcases hla : loadedSourceApply nb currentLine cwd st ns with
    ⟨st1, cmds1, coincide⟩
  rw [hla] at hcoin
  simp only at hcoin
  subst hcoin
  by_cases hcond : strStartsWith ns "continue" = true ∧ (cmd = "n" ∨ cmd = "c")
  · have hres : (execute nb currentLine cwd st cmd lines).resume = true := by
      simp [execute, hterm, hns, hla, hcond]
    refine ⟨?_, ?_⟩
    · rw [hres]
      exact ⟨fun _ => hcond, fun _ => rfl⟩
    · rw [hres]
      intro habs
      exact absurd habs (by simp)
  · have hres : (execute nb currentLine cwd st cmd lines).resume = false := by
      simp [execute, hterm, hns, hla, hcond]
    have hev : Event.stopped "new source" ∈
        (execute nb currentLine cwd st cmd lines).events := by
      simp [execute, hterm, hns, hla, hcond]
    refine ⟨?_, fun _ => hev⟩
    rw [hres]
    simp only [Bool.false_eq_true, false_iff]
    exact hcond

/-- C7 witness: the marker plus a continue command auto-resumes. -/
theorem newSourceAutoResume_witness :
    (execute (fun _ => false) 0 "/w" initBpState "c"
      ["c", "continue loaded source a.pl", "  DB<9> "]).resume = true := by
  have h := (newSourceAutoResume (fun _ => false) 0 "/w" initBpState "c"
    ["c", "continue loaded source a.pl", "  DB<9> "]
    "continue loaded source a.pl" (by decide) (by decide) (by decide)).1
  exact h.mpr ⟨by decide, Or.inr rfl⟩

/-- The engine response to the dump request for a hash
`%h = ( "a" => 1, "b" => [1,2,3] )` (Data::Dumper with `Indent(1)`,
`Trailingcomma(1)`, `Useqq(1)`): echoed command, the dump of
`{ "a" => 1, "b" => [1,2,3] }`, and the prompt line. -/
def dumpHashResponse : List String :=
  ["cmd", "$VAR1 = \x7b", "  \"a\" => 1,", "  \"b\" => [",
   "    1,", "    2,", "    3,", "  ],", "\x7d;", "  DB<2> "]

/-- C5: parsing the dump of `{ "a" => 1, "b" => [1,2,3] }` produces a root
HASH node (handle 998) with exactly two children; child `a` is the scalar
`1`, child `b` is an ARRAY node (handle 997) whose three scalar children
are named `0`,`1`,`2` with values `1`,`2`,`3`; and the recursive
`parseDumper` call on the nested block consumes exactly its four lines —
the three elements plus the closing `],` line — reporting kind ARRAY and
three children. -/
theorem parseDumperNestedExample :
    ((parseVars initVarState [dumpHashResponse] ["%h"]).map
      (fun r => r.vs.map
        (fun v => (v.name, v.value, v.variablesReference,
          v.namedVariables))) =
      some [("%h", "HASH", 998, some 2)])
    ∧ ((parseVars initVarState [dumpHashResponse] ["%h"]).map
      (fun r => ((mapGet r.st.childVarsMap 998).getD []).map
        (fun v => (v.name, v.value, v.variablesReference, v.type))) =
      some [("a", "1", 0, some "SCALAR"),
            ("b", "ARRAY", 997, some "ARRAY")])
    ∧ ((parseVars initVarState [dumpHashResponse] ["%h"]).map
      (fun r => ((mapGet r.st.childVarsMap 997).getD []).map
        (fun v => (v.name, v.value, v.variablesReference, v.type))) =
      some [("0", "1", 0, some "SCALAR"), ("1", "2", 0, some "SCALAR"),
            ("2", "3", 0, some "SCALAR")])
    ∧ ((parseDumper ⟨997, [], [], [998]⟩
        ["    1,", "    2,", "    3,", "  ],"]).2 = (4, "ARRAY", 3))
    ∧ (["    1,", "    2,", "    3,", "  ],"].length = 4) := by
  refine ⟨by decide, by decide, by decide, by decide, rfl⟩

/-- A dump response for a flat hash `( "a" => 1 )`. -/
def dumpFlatResponse : List String :=
  ["cmd", "$VAR1 = \x7b", "  \"a\" => 1,", "\x7d;", "  DB<2> "]

/-- A response whose body is empty once the echo and prompt are stripped:
`varDump[0]` is `undefined`, so the `.match` call throws into the first
`catch`, which increments `currentVarRef`. -/
def emptyDumpResponse : List String := ["cmd", "  DB<2> "]

/-- C4 counterexample: one structured variable, two dump errors, then
another structured variable.  The two error recoveries push the counter
back up, so handle 998 is allocated twice: the ghost log reads
`[998, 998]`, and both live root nodes `%h` and `%h2` carry
`variablesReference = 998` — two live nodes share a handle within one
scope lifetime. -/
theorem handleReuseCounterexample :
    (((parseVars initVarState
        [dumpFlatResponse, emptyDumpResponse, emptyDumpResponse,
         dumpFlatResponse] ["%h", "%e1", "%e2", "%h2"]).map
      (fun r => (r.st.allocLog, r.errs,
        r.vs.map (fun v => (v.name, v.variablesReference))))) =
      some ([998, 998], 2, [("%h", 998), ("%h2", 998)]))
    ∧ ¬ ([998, 998] : List Int).Nodup := by
  exact ⟨by decide, by decide⟩

/-- The allocation-freshness invariant of a state transition: the counter
never increases, and the ghost log grows by entries that are strictly
increasing towards the head and confined to the half-open counter interval
of the transition. -/
def LogExt (stIn stOut : VarState) : Prop :=
  stOut.currentVarRef ≤ stIn.currentVarRef ∧
  ∃ new, stOut.allocLog = new ++ stIn.allocLog ∧
    List.Chain' (· < ·) new ∧
    ∀ x ∈ new, stOut.currentVarRef < x ∧ x ≤ stIn.currentVarRef

theorem LogExt.refl (st : VarState) : LogExt st st :=
  ⟨le_refl _, [], rfl, List.chain'_nil, by simp⟩

theorem LogExt.of_eq {a b : VarState} (hc : b.currentVarRef = a.currentVarRef)
    (hl : b.allocLog = a.allocLog) : LogExt a b :=
  ⟨le_of_eq hc, [], by simp [hl], List.chain'_nil, by simp⟩

theorem LogExt.trans {a b c : VarState} (h1 : LogExt a b) (h2 : LogExt b c) :
    LogExt a c := by
  obtain ⟨hc1, n1, hl1, ch1, hb1⟩ := h1
  obtain ⟨hc2, n2, hl2, ch2, hb2⟩ := h2
  refine ⟨le_trans hc2 hc1, n2 ++ n1, by rw [hl2, hl1, List.append_assoc],
    ?_, ?_⟩
  · rw [List.chain'_append]
    refine ⟨ch2, ch1, ?_⟩
    intro x hx y hy
    have hxm : x ∈ n2 := List.mem_of_mem_getLast? hx
    have hym : y ∈ n1 := List.mem_of_mem_head? hy
    exact lt_of_le_of_lt (hb2 x hxm).2 (hb1 y hym).1
  · intro x hx
    rcases List.mem_append.mp hx with hx | hx
    · exact ⟨(hb2 x hx).1, le_trans (hb2 x hx).2 hc1⟩
    · exact ⟨lt_of_le_of_lt hc2 (hb1 x hx).1, (hb1 x hx).2⟩

/-- The nested-open allocation step: push the current counter value and
decrement. -/
theorem LogExt.push (st : VarState) :
    LogExt st { st with currentVarRef := st.currentVarRef - 1,
                        allocLog := st.currentVarRef :: st.allocLog } := by
  refine ⟨by simp, [st.currentVarRef], rfl, List.chain'_singleton _, ?_⟩
  intro x hx
  simp only [List.mem_singleton] at hx
  subst hx
  exact ⟨by simp, le_refl _⟩

theorem parseDumperGo_logExt :
    ∀ (fuel : Nat) (lines : List String) (st : VarState) (ai : Nat)
      (cv : List Variable),
    LogExt st (parseDumperGo st ai cv fuel lines).1 := by
  intro fuel
  induction fuel with
  | zero =>
    intro lines st ai cv
    cases lines <;> exact LogExt.refl st
  | succ fuel ih =>
    intro lines st ai cv
    cases lines with
    | nil => exact LogExt.refl st
    | cons l rest =>
      simp only [parseDumperGo]
      split
      · exact LogExt.refl st
      · split
        · exact ih rest st ai _
        · split
          · exact ih rest st (ai + 1) _
          · split
            · exact (((LogExt.push st).trans (ih rest _ 0 [])).trans
                (LogExt.of_eq rfl rfl)).trans (ih _ _ _ _)
            · split
              · exact (((LogExt.push st).trans (ih rest _ 0 [])).trans
                  (LogExt.of_eq rfl rfl)).trans (ih _ _ _ _)
              · exact ih rest st ai _

/-- `parseDumper` decrements the counter before parsing, so its fresh log
entries stay strictly below the incoming counter value. -/
theorem parseDumper_logExt (st : VarState) (lines : List String) :
    (parseDumper st lines).1.currentVarRef ≤ st.currentVarRef - 1 ∧
    ∃ new, (parseDumper st lines).1.allocLog = new ++ st.allocLog ∧
      List.Chain' (· < ·) new ∧
      ∀ x ∈ new, (parseDumper st lines).1.currentVarRef < x ∧
        x ≤ st.currentVarRef - 1 := by
  have h := parseDumperGo_logExt lines.length lines
    { st with currentVarRef := st.currentVarRef - 1 } 0 []
  obtain ⟨hctr, new, hlog, hch, hb⟩ := h
  simp only at hctr hlog hb
  refine ⟨?_, new, ?_, hch, ?_⟩
  · simpa [parseDumper] using hctr
  · simpa [parseDumper] using hlog
  · intro x hx
    have := hb x hx
    constructor
    · simpa [parseDumper] using this.1
    · simpa using this.2

/-- The allocation shape of the structured branch of `parsePhase`:
decrement, log the new root handle, and run `parseDumper`. -/
theorem parsePhase_alloc_step (st : VarState) (lines : List String) :
    LogExt st (parseDumper
      { st with currentVarRef := st.currentVarRef - 1,
                allocLog := (st.currentVarRef - 1) :: st.allocLog }
      lines).1 := by
  obtain ⟨hctr, new, hlog, hch, hb⟩ := parseDumper_logExt
    { st with currentVarRef := st.currentVarRef - 1,
              allocLog := (st.currentVarRef - 1) :: st.allocLog } lines
  simp only at hctr hlog hb
  refine ⟨by omega, new ++ [st.currentVarRef - 1], ?_, ?_, ?_⟩
  · rw [hlog]
    simp
  · rw [List.chain'_append]
    refine ⟨hch, List.chain'_singleton _, ?_⟩
    intro x hx y hy
    have hxm := List.mem_of_mem_getLast? hx
    simp only [List.head?_cons, Option.mem_def, Option.some.injEq] at hy
    subst hy
    have := hb x hxm
    omega
  · intro x hx
    rcases List.mem_append.mp hx with hx | hx
    · have := hb x hx
      exact ⟨this.1, by omega⟩
    · simp only [List.mem_singleton] at hx
      subst hx
      exact ⟨by omega, by omega⟩

theorem parsePhase_logExt (st : VarState) (name : String)
    (varDump : List String) :
    LogExt st (parsePhase st name varDump).1 := by
  simp only [parsePhase]
  split
  · exact LogExt.refl st
  · split
    · exact parsePhase_alloc_step st _
    · exact parsePhase_alloc_step st _

theorem parseVarsGo_errs_mono :
    ∀ (names : List String) (r r' : VarRun),
    parseVarsGo r names = some r' → r.errs ≤ r'.errs := by
  intro names
  induction names with
  | nil =>
    intro r r' h
    simp only [parseVarsGo, Option.some.injEq] at h
    subst h
    exact le_refl _
  | cons name rest ih =>
    intro r r' h
    simp only [parseVarsGo] at h
    split at h
    · exact absurd h (by simp)
    · split at h
      · exact absurd h (by simp)
      · split at h
        · have := ih _ _ h
          simp only at this
          omega
        · simp only [Option.some.injEq] at h
          subst h
          exact le_refl _
        · have := ih _ _ h
          simpa using this

theorem parseVarsGo_logExt :
    ∀ (names : List String) (r r' : VarRun),
    parseVarsGo r names = some r' → r'.errs = r.errs →
    LogExt r.st r'.st := by
  intro names
  induction names with
  | nil =>
    intro r r' h _
    simp only [parseVarsGo, Option.some.injEq] at h
    subst h
    exact LogExt.refl _
  | cons name rest ih =>
    intro r r' h herr
    simp only [parseVarsGo] at h
    split at h
    · exact absurd h (by simp)
    · split at h
      · exact absurd h (by simp)
      · split at h
        · have hmono' : r.errs + 1 ≤ r'.errs := parseVarsGo_errs_mono rest _ _ h
          omega
        · simp only [Option.some.injEq] at h
          subst h
          exact LogExt.of_eq rfl rfl
        · exact (parsePhase_logExt r.st name _).trans (ih _ _ h herr)

/-- A sequence of `parseVars` batches within one scope lifetime (successive
variables requests), each with its own engine responses; returns the final
state and the total count of error-recovery executions. -/
def runBatches : VarState → List (List (List String) × List String) →
    Option (VarState × Nat)
  | st, [] => some (st, 0)
  | st, (engine, names) :: rest =>
    match parseVars st engine names with
    | none => none
    | some r =>
      match runBatches r.st rest with
      | none => none
      | some (st', e) => some (st', r.errs + e)

theorem parseVars_logExt (st : VarState) (engine : List (List String))
    (names : List String) (r : VarRun)
    (h : parseVars st engine names = some r) (herr : r.errs = 0) :
    LogExt st r.st :=
  parseVarsGo_logExt names _ r h (by simpa using herr)

theorem runBatches_logExt :
    ∀ (batches : List (List (List String) × List String))
      (st st' : VarState) (e : Nat),
    runBatches st batches = some (st', e) → e = 0 → LogExt st st' := by
  intro batches
  induction batches with
  | nil =>
    intro st st' e h he
    simp only [runBatches, Option.some.injEq, Prod.mk.injEq] at h
    rw [← h.1]
    exact LogExt.refl st
  | cons b rest ih =>
    intro st st' e h he
    rcases b with ⟨engine, names⟩
    simp only [runBatches] at h
    split at h
    · exact absurd h (by simp)
    · rename_i r hr
      split at h
      · exact absurd h (by simp)
      · rename_i p st'' e' hp
        simp only [Option.some.injEq, Prod.mk.injEq] at h
        obtain ⟨h1, h2⟩ := h
        have hr0 : r.errs = 0 := by omega
        have he0 : e' = 0 := by omega
        rw [← h1]
        exact (parseVars_logExt st engine names r hr hr0).trans
          (ih r.st st'' e' hp he0)

/-- C4 (amended): within one scope lifetime — any sequence of
variable-parsing batches after a scopes request — in which no dump-parse
error occurs (the error recovery that increments the counter never runs),
no handle is ever allocated twice: the ghost allocation log is duplicate
free.  A scopes request resets the counter to 999 and clears both maps, so
every lookup of a previously allocated handle fails afterwards. -/
theorem handleAllocationFresh (st0 : VarState)
    (batches : List (List (List String) × List String)) (st' : VarState)
    (hrun : runBatches (scopesRequestClear st0) batches = some (st', 0)) :
    st'.allocLog.Nodup
    ∧ (∀ stAny : VarState, (scopesRequestClear stAny).currentVarRef = 999
        ∧ ∀ h : Int,
          mapGet (scopesRequestClear stAny).childVarsMap h = none ∧
          mapGet (scopesRequestClear stAny).parentVarsMap h = none) := by
  constructor
  · obtain ⟨_, new, hlog, hch, _⟩ :=
      runBatches_logExt batches _ st' 0 hrun rfl
    have hlog' : st'.allocLog = new := by
      simpa [scopesRequestClear, initVarState] using hlog
    rw [hlog']
    have hp : new.Pairwise (· < ·) := List.chain'_iff_pairwise.mp hch
    exact hp.imp (fun hlt => ne_of_lt hlt)
  · intro stAny
    exact ⟨rfl, fun h => ⟨rfl, rfl⟩⟩

/-- C4 witness: a concrete error-free batch from a fresh scope. -/
theorem handleAllocationFresh_witness :
    (((runBatches (scopesRequestClear initVarState)
        [([dumpHashResponse], ["%h"])]).getD (initVarState, 0)).1).allocLog.Nodup
    ∧ (∀ stAny : VarState, (scopesRequestClear stAny).currentVarRef = 999
        ∧ ∀ h : Int,
          mapGet (scopesRequestClear stAny).childVarsMap h = none ∧
          mapGet (scopesRequestClear stAny).parentVarsMap h = none) :=
  handleAllocationFresh initVarState [([dumpHashResponse], ["%h"])]
    ((runBatches (scopesRequestClear initVarState)
      [([dumpHashResponse], ["%h"])]).getD (initVarState, 0)).1 (by decide)

/-- A collected output that is neither a dump result nor a termination
notice: the debuggee stopped re-entrantly while dumping. -/
def retryShaped (vd : List String) : Prop :=
  vd ≠ [] ∧ isVarDumpStart (vd.headD "") = false ∧
  strContains (String.intercalate "," vd)
    "Debugged program terminated." = false

/-- A collected output carrying the termination sentinel. -/
def termShaped (vd : List String) : Prop :=
  vd ≠ [] ∧ isVarDumpStart (vd.headD "") = false ∧
  strContains (String.intercalate "," vd)
    "Debugged program terminated." = true

theorem dumpLoop_term_step (varDump : List String) (drain : List String)
    (engineRest : List (List String)) (h : termShaped varDump) :
    dumpLoop (drain :: engineRest) varDump =
      some (engineRest, [EngineCmd.sleepHalf], DumpLoopOut.term) := by
  obtain ⟨hne, hnd, hs⟩ := h
  cases varDump with
  | nil => exact absurd rfl hne
  | cons d0 tl =>
    simp only [List.headD_cons] at hnd
    simp only [dumpLoop, hnd, Bool.false_eq_true, if_false, hs, if_true]

theorem dumpLoop_term :
    ∀ (rs : List (List String)) (varDump : List String)
      (respT drain : List String) (engineRest : List (List String)),
    retryShaped varDump →
    (∀ r ∈ rs, retryShaped (responseBody r)) →
    termShaped (responseBody respT) →
    dumpLoop (rs ++ respT :: drain :: engineRest) varDump =
      some (engineRest,
        List.replicate (rs.length + 1) EngineCmd.cont ++
          [EngineCmd.sleepHalf],
        DumpLoopOut.term) := by
  intro rs
  induction rs with
  | nil =>
    intro varDump respT drain engineRest hvd _ hT
    obtain ⟨hne, hnd, hns⟩ := hvd
    cases varDump with
    | nil => exact absurd rfl hne
    | cons d0 tl =>
      simp only [List.headD_cons] at hnd
      simp only [List.nil_append, dumpLoop, hnd, Bool.false_eq_true,
        if_false, hns]
      rw [dumpLoop_term_step (responseBody respT) drain engineRest hT]
      simp [List.replicate]
  | cons resp0 rs' ih =>
    intro varDump respT drain engineRest hvd hrs hT
    obtain ⟨hne, hnd, hns⟩ := hvd
    cases varDump with
    | nil => exact absurd rfl hne
    | cons d0 tl =>
      simp only [List.headD_cons] at hnd
      simp only [List.cons_append, dumpLoop, hnd, Bool.false_eq_true,
        if_false, hns, List.append_eq]
      rw [ih (responseBody resp0) respT drain engineRest
        (hrs resp0 (by simp)) (fun r hr => hrs r (by simp [hr])) hT]
      simp [List.replicate_succ]

/-- C9: while a variable-dump request is outstanding, every collected
output that is not a dump result makes the adapter re-issue a `c`
(continue) command and retry; when the program terminates during these
retries, the whole variable request returns the single empty-value variable
(an empty/undefined result), raises the terminated (session-end) event, and
takes no per-request error path (the error counter stays 0 and the state is
untouched). -/
theorem dumpRetryOnReentrantStop (st : VarState) (name : String)
    (restNames : List String) (resp : List String)
    (rs : List (List String)) (respT drain : List String)
    (engineRest : List (List String))
    (h0 : retryShaped (responseBody resp))
    (hrs : ∀ r ∈ rs, retryShaped (responseBody r))
    (hT : termShaped (responseBody respT)) :
    parseVars st (resp :: (rs ++ respT :: drain :: engineRest))
      (name :: restNames) =
      some { st := st, engine := engineRest,
             cmds := EngineCmd.dumpVar (wrapVarName name) ::
               (List.replicate (rs.length + 1) EngineCmd.cont ++
                 [EngineCmd.sleepHalf]),
             events := [Event.terminated], errs := 0,
             vs := [{ name := wrapVarName name, value := "",
                      variablesReference := 0 }] } := by
  simp only [parseVars, parseVarsGo]
  rw [dumpLoop_term rs (responseBody resp) respT drain engineRest h0 hrs hT]
  rfl

/-- C9 witness: one re-entrant stop, then termination. -/
theorem dumpRetryOnReentrantStop_witness :
    parseVars initVarState
      [["cmd", "main::(s.pl:3):", "  DB<1> "],
       ["c", "Debugged program terminated.", "  DB<1> "],
       ["sleep(.5)", "  DB<1> "]] ["%h"] =
      some { st := initVarState, engine := [],
             cmds := EngineCmd.dumpVar (wrapVarName "%h") ::
               (List.replicate 1 EngineCmd.cont ++ [EngineCmd.sleepHalf]),
             events := [Event.terminated], errs := 0,
             vs := [{ name := wrapVarName "%h", value := "",
                      variablesReference := 0 }] } := by
  exact dumpRetryOnReentrantStop initVarState "%h" []
    ["cmd", "main::(s.pl:3):", "  DB<1> "] []
    ["c", "Debugged program terminated.", "  DB<1> "]
    ["sleep(.5)", "  DB<1> "] [] ⟨by decide, by decide, by decide⟩
    (by simp) ⟨by decide, by decide, by decide⟩

/-- The correlator's inductive invariant: at most one in-flight request,
nothing queued while the channel is idle, the ids of delivered, in-flight
and queued requests in order form exactly `0, …, nextId-1`, every buffer
(delivered or in-flight) is precisely the lines attributed to its request,
queued requests own no lines yet, and attributed ids are in range. -/
def CorrInv (st : CorrState) : Prop :=
  st.inflight.length ≤ 1 ∧
  (st.inflight = [] → st.queue = []) ∧
  (st.delivered.map (fun p => p.1) ++ st.inflight.map (fun p => p.1) ++
    st.queue.map (fun p => p.1) = List.range st.nextId) ∧
  (∀ p ∈ st.delivered,
    p.2 = (st.attrib.filter (fun a => a.1 = p.1)).map (fun a => a.2)) ∧
  (∀ p ∈ st.inflight,
    p.2.2 = (st.attrib.filter (fun a => a.1 = p.1)).map (fun a => a.2)) ∧
  (∀ p ∈ st.queue, st.attrib.filter (fun a => a.1 = p.1) = []) ∧
  (∀ a ∈ st.attrib, a.1 < st.nextId)

theorem corrInit_inv : CorrInv corrInit := by
  refine ⟨by simp [corrInit], by simp [corrInit], by simp [corrInit], ?_, ?_,
    ?_, ?_⟩ <;> simp [corrInit]

theorem corrStep_inv (prompt : String → Bool) (st : CorrState) (ev : CorrEv)
    (h : CorrInv st) : CorrInv (corrStep prompt st ev) := by
  obtain ⟨hlen, hidle, hrange, hdeliv, hinfl, hqueue, hbound⟩ := h
  have hfilterNext : st.attrib.filter (fun a => a.1 = st.nextId) = [] := by
    rw [List.filter_eq_nil_iff]
    intro a ha
    have := hbound a ha
    simp only [decide_eq_true_eq]
    omega
  cases ev with
  | submit cmd =>
    cases hin : st.inflight with
    | nil =>
      have hq : st.queue = [] := hidle hin
      simp only [corrStep, hin]
      refine ⟨by simp, by simp [hq], ?_, ?_, ?_, ?_, ?_⟩
      · simp only [List.map_cons, List.map_nil, hq]
        rw [List.range_succ, ← hrange, hin, hq]
        simp
      · intro p hp
        exact hdeliv p hp
      · intro p hp
        simp only [List.mem_singleton] at hp
        subst hp
        simp [hfilterNext]
      · intro p hp
        simp [hq] at hp
      · intro a ha
        show a.1 < st.nextId + 1
        have := hbound a ha
        omega
    | cons f tl =>
      simp only [corrStep, hin]
      refine ⟨by rw [← hin]; exact hlen, by simp, ?_, ?_, ?_, ?_, ?_⟩
      · simp only [List.map_append, List.map_cons, List.map_nil]
        rw [List.range_succ, ← hrange, hin]
        simp
      · exact hdeliv
      · intro p hp
        rw [← hin] at hp
        exact hinfl p hp
      · intro p hp
        rcases List.mem_append.mp hp with hp | hp
        · exact hqueue p hp
        · simp only [List.mem_singleton] at hp
          subst hp
          exact hfilterNext
      · intro a ha
        show a.1 < st.nextId + 1
        have := hbound a ha
        omega
  | line s =>
    cases hin : st.inflight with
    | nil =>
      have hstep : corrStep prompt st (CorrEv.line s) = st := by
        simp [corrStep, hin]
      rw [hstep]
      exact ⟨hlen, hidle, hrange, hdeliv, hinfl, hqueue, hbound⟩
    | cons f tl =>
      rcases f with ⟨id0, cmd0, buf0⟩
      have htl : tl = [] := by
        rw [hin] at hlen
        simpa using hlen
      subst htl
      have hid0lt : id0 < st.nextId := by
        have hmem : id0 ∈ st.delivered.map (fun p => p.1) ++
            st.inflight.map (fun p => p.1) ++
            st.queue.map (fun p => p.1) := by
          rw [hin]
          simp
        rw [hrange] at hmem
        simpa using hmem
      have hnd : (st.delivered.map (fun p => p.1) ++
          st.inflight.map (fun p => p.1) ++
          st.queue.map (fun p => p.1)).Nodup := by
        rw [hrange]
        exact List.nodup_range _
      rw [hin] at hnd
      simp only [List.map_cons, List.map_nil] at hnd
      have hdisj1 : ∀ p ∈ st.delivered, p.1 ≠ id0 := by
        intro p hp hcon
        rw [List.append_assoc] at hnd
        have hd := (List.nodup_append.mp hnd).2.2
        exact hd (List.mem_map_of_mem _ hp) (by simp [hcon])
      have hdisj2 : ∀ p ∈ st.queue, p.1 ≠ id0 := by
        intro p hp hcon
        rw [List.append_assoc] at hnd
        have h2 := (List.nodup_append.mp hnd).2.1
        have hd := (List.nodup_append.mp h2).2.2
        have hmm : id0 ∈ List.map (fun p => p.1) st.queue := by
          rw [← hcon]
          exact List.mem_map_of_mem _ hp
        exact hd (List.mem_singleton_self id0) hmm
      have hbuf0 : buf0 =
          (st.attrib.filter (fun a => a.1 = id0)).map (fun a => a.2) := by
        have := hinfl (id0, cmd0, buf0) (by rw [hin]; simp)
        simpa using this
      have hdeliv' : ∀ p ∈ st.delivered,
          p.2 = ((st.attrib ++ [(id0, s)]).filter
            (fun a => a.1 = p.1)).map (fun a => a.2) := by
        intro p hp
        rw [List.filter_append]
        have hone : ([((id0 : Nat), s)].filter (fun a => a.1 = p.1)) = [] := by
          simp [(hdisj1 p hp).symm]
        rw [hone, List.append_nil]
        exact hdeliv p hp
      have hqueue' : ∀ p ∈ st.queue,
          (st.attrib ++ [(id0, s)]).filter (fun a => a.1 = p.1) = [] := by
        intro p hp
        rw [List.filter_append]
        have hone : ([((id0 : Nat), s)].filter (fun a => a.1 = p.1)) = [] := by
          simp [(hdisj2 p hp).symm]
        rw [hone, List.append_nil]
        exact hqueue p hp
      have hnewbuf : buf0 ++ [s] =
          ((st.attrib ++ [(id0, s)]).filter
            (fun a => a.1 = id0)).map (fun a => a.2) := by
        rw [List.filter_append, List.map_append, ← hbuf0]
        simp
      have hbound' : ∀ a ∈ st.attrib ++ [((id0 : Nat), s)],
          a.1 < st.nextId := by
        intro a ha
        rcases List.mem_append.mp ha with ha | ha
        · exact hbound a ha
        · simp only [List.mem_singleton] at ha
          subst ha
          exact hid0lt
      by_cases hps : prompt s
      · cases hq : st.queue with
        | nil =>
          have hstep : corrStep prompt st (CorrEv.line s) =
              { st with inflight := [], queue := [],
                        delivered := st.delivered ++ [(id0, buf0 ++ [s])],
                        attrib := st.attrib ++ [(id0, s)] } := by
            simp [corrStep, hin, hps, hq]
          rw [hstep]
          refine ⟨by simp, by simp, ?_, ?_,
            fun p hp => absurd hp (List.not_mem_nil p),
            fun p hp => absurd hp (List.not_mem_nil p), hbound'⟩
          · simp only [List.map_append]
            rw [← hrange, hin, hq]
            simp
          · intro p hp
            rcases List.mem_append.mp hp with hp | hp
            · exact hdeliv' p hp
            · simp only [List.mem_cons, List.not_mem_nil, or_false] at hp
              subst hp
              exact hnewbuf
        | cons q2 q' =>
          rcases q2 with ⟨id2, c2⟩
          have hstep : corrStep prompt st (CorrEv.line s) =
              { st with inflight := [(id2, c2, [])], queue := q',
                        delivered := st.delivered ++ [(id0, buf0 ++ [s])],
                        attrib := st.attrib ++ [(id0, s)] } := by
            simp [corrStep, hin, hps, hq]
          rw [hstep]
          refine ⟨by simp, by simp, ?_, ?_, ?_, ?_, hbound'⟩
          · simp only [List.map_append]
            rw [← hrange, hin, hq]
            simp
          · intro p hp
            rcases List.mem_append.mp hp with hp | hp
            · exact hdeliv' p hp
            · simp only [List.mem_cons, List.not_mem_nil, or_false] at hp
              subst hp
              exact hnewbuf
          · intro p hp
            simp only [List.mem_cons, List.not_mem_nil, or_false] at hp
            subst hp
            show ([] : List String) =
              ((st.attrib ++ [(id0, s)]).filter
                (fun a => a.1 = id2)).map (fun a => a.2)
            rw [hqueue' (id2, c2) (by rw [hq]; simp)]
            rfl
          · intro p hp
            exact hqueue' p (by rw [hq]; simp [hp])
      · have hstep : corrStep prompt st (CorrEv.line s) =
            { st with inflight := [(id0, cmd0, buf0 ++ [s])],
                      attrib := st.attrib ++ [(id0, s)] } := by
          simp [corrStep, hin, hps]
        rw [hstep]
        refine ⟨by simp, by simp, ?_, hdeliv', ?_, hqueue', hbound'⟩
        · rw [← hrange, hin]
          simp
        · intro p hp
          simp only [List.mem_cons, List.not_mem_nil, or_false] at hp
          subst hp
          exact hnewbuf

theorem corrFold_inv (prompt : String → Bool) :
    ∀ (evs : List CorrEv) (st : CorrState), CorrInv st →
    CorrInv (evs.foldl (corrStep prompt) st) := by
  intro evs
  induction evs with
  | nil => intro st hst; exact hst
  | cons ev rest ih =>
    intro st hst
    exact ih _ (corrStep_inv prompt st ev hst)

/-- C1: for every trace of concurrently submitted `request()` calls and
arriving output lines, the correlator keeps at most one command awaiting
its terminator, delivers responses exactly in submission order (the
delivered ids are `0, 1, …` in order), and every response's captured lines
are precisely the lines attributed to that command while it alone was in
flight — no response contains lines of a different command's output.
(Modelled from the spec: `src/streamCatcher.ts` is not among the provided
sources; the queue discipline follows spec sections 4.1-4.2.) -/
theorem correlatorFifoNoInterleave (prompt : String → Bool)
    (evs : List CorrEv) :
    ((corrRun prompt evs).inflight.length ≤ 1)
    ∧ ((corrRun prompt evs).delivered.map (fun p => p.1) =
        List.range (corrRun prompt evs).delivered.length)
    ∧ (∀ p ∈ (corrRun prompt evs).delivered,
        p.2 = (((corrRun prompt evs).attrib.filter
          (fun a => a.1 = p.1)).map (fun a => a.2))) := by
  simp only [corrRun]
  obtain ⟨hlen, _, hrange, hdeliv, _, _, _⟩ :=
    corrFold_inv prompt evs corrInit corrInit_inv
  refine ⟨hlen, ?_, hdeliv⟩
  set R := List.foldl (corrStep prompt) corrInit evs with hR
  have hlenA : (R.delivered.map (fun p => p.1)).length ≤ R.nextId := by
    have hcg := congrArg List.length hrange
    simp only [List.length_append, List.length_range] at hcg
    omega
  have htake : R.delivered.map (fun p => p.1) =
      (List.range R.nextId).take
        ((R.delivered.map (fun p => p.1)).length) := by
    rw [← hrange, List.append_assoc, List.take_left]
  rw [htake, List.take_range, Nat.min_eq_left hlenA]
  simp

/-! ### Regex evaluation lemmas for loaded-source lines -/

theorem reM_string_consume (cs rest : List Char) :
    ∀ (caps : Caps) (k : List Char → Caps → Option Caps),
    reM (Re.seqAll (cs.map Re.chr)) (cs ++ rest) caps k = k rest caps := by
  induction cs with
  | nil => intro caps k; rfl
  | cons c cs ih =>
    intro caps k
    simp only [List.map_cons, Re.seqAll, List.foldr_cons, List.cons_append,
      reM, if_pos rfl]
    exact ih caps k

theorem starRun_all (q : Char → Bool) :
    ∀ (cs : List Char) (caps : Caps) (k : List Char → Caps → Option Caps),
    (∀ c ∈ cs, q c = true) → (k [] caps).isSome = true →
    starRun q cs caps k = k [] caps := by
  intro cs
  induction cs with
  | nil => intro caps k _ _; rfl
  | cons c cs ih =>
    intro caps k hall hsome
    simp only [starRun, if_pos (hall c (by simp))]
    rw [ih caps k (fun x hx => hall x (by simp [hx])) hsome]
    obtain ⟨v, hv⟩ := Option.isSome_iff_exists.mp hsome
    rw [hv]

theorem isPrefixOf_append_self (l r : List Char) :
    l.isPrefixOf (l ++ r) = true := by
  induction l with
  | nil => simp [List.isPrefixOf]
  | cons c l ih => simp [List.isPrefixOf, ih]

theorem listInfixOf_of_prefix (pat s : List Char)
    (h : pat.isPrefixOf s = true) : listInfixOf pat s = true := by
  cases s with
  | nil => simpa [listInfixOf] using h
  | cons c rest => simp [listInfixOf, h]

theorem toList_append (a b : String) :
    (a ++ b).toList = a.toList ++ b.toList := by
  cases a
  cases b
  rfl

theorem reSearch_of_match (r : Re) (ae : Bool) (s : List Char) (caps : Caps)
    (h : reMatchAt r ae s = some caps) : reSearch r ae s = some caps := by
  cases s with
  | nil => simp [reSearch, h]
  | cons c rest => simp [reSearch, h]

theorem reM_seq (a b : Re) (s : List Char) (caps : Caps)
    (k : List Char → Caps → Option Caps) :
    reM (Re.seq a b) s caps k =
      reM a s caps (fun s' caps' => reM b s' caps' k) := rfl

theorem reM_group_star (i : Nat) (q : Char → Bool) (cs : List Char)
    (caps : Caps) (k : List Char → Caps → Option Caps)
    (hall : ∀ c ∈ cs, q c = true)
    (hsome : (k [] ((i, (⟨cs⟩ : String)) :: caps)).isSome = true) :
    reM (Re.group i (Re.starCls q)) cs caps k =
      k [] ((i, (⟨cs⟩ : String)) :: caps) := by
  show starRun q cs caps
    (fun s' caps' =>
      k s' ((i, (⟨cs.take (cs.length - s'.length)⟩ : String)) :: caps')) = _
  rw [starRun_all q cs caps _ hall (by simpa using hsome)]
  simp

theorem loadedSourcePath_concat (p : String)
    (hp : ∀ c ∈ p.toList, jsDot c = true) :
    loadedSourcePath ("loaded source " ++ p) = some p := by
  have hmatch : reMatchAt (Re.seqAll
      [Re.ofString "loaded source ", Re.group 1 (Re.starCls jsDot)]) false
      (("loaded source " ++ p).toList) = some [(1, p)] := by
    rw [toList_append]
    unfold reMatchAt
    show reM (Re.seq (Re.ofString "loaded source ")
      (Re.seq (Re.group 1 (Re.starCls jsDot)) Re.eps))
      ("loaded source ".toList ++ p.toList) [] _ = _
    rw [reM_seq]
    rw [show Re.ofString "loaded source " =
      Re.seqAll ("loaded source ".toList.map Re.chr) from rfl]
    rw [reM_string_consume]
    show reM (Re.seq (Re.group 1 (Re.starCls jsDot)) Re.eps) p.toList [] _ = _
    rw [reM_seq]
    rw [reM_group_star 1 jsDot p.toList [] _ hp (by rfl)]
    rfl
  unfold loadedSourcePath
  rw [reSearch_of_match _ _ _ _ hmatch]
  rfl

theorem strContains_loadedSource (p : String) :
    strContains ("loaded source " ++ p) "loaded source" = true := by
  apply listInfixOf_of_prefix
  rw [toList_append]
  rw [show "loaded source ".toList = "loaded source".toList ++ [' '] from rfl,
    List.append_assoc]
  exact isPrefixOf_append_self _ _

/-! ### Map lemmas -/

theorem mapGet_cons {κ α : Type} [DecidableEq κ] (q : κ × α)
    (m : List (κ × α)) (k : κ) :
    mapGet (q :: m) k = if q.1 = k then some q.2 else mapGet m k := by
  by_cases h : q.1 = k
  · simp [mapGet, List.find?, h]
  · simp [mapGet, List.find?, h]

theorem mapDel_cons {κ α : Type} [DecidableEq κ] (q : κ × α)
    (m : List (κ × α)) (k : κ) :
    mapDel (q :: m) k =
      if q.1 = k then mapDel m k else q :: mapDel m k := by
  by_cases h : q.1 = k
  · simp [mapDel, List.filter_cons, h]
  · simp [mapDel, List.filter_cons, h]

theorem mapGet_mapDel_self {κ α : Type} [DecidableEq κ]
    (m : List (κ × α)) (k : κ) : mapGet (mapDel m k) k = none := by
  induction m with
  | nil => rfl
  | cons q m ih =>
    by_cases h : q.1 = k
    · rw [mapDel_cons, if_pos h]
      exact ih
    · rw [mapDel_cons, if_neg h, mapGet_cons, if_neg h]
      exact ih

theorem mapGet_mapDel_ne {κ α : Type} [DecidableEq κ]
    (m : List (κ × α)) (k k' : κ) (h : k' ≠ k) :
    mapGet (mapDel m k) k' = mapGet m k' := by
  induction m with
  | nil => rfl
  | cons q m ih =>
    by_cases hq : q.1 = k
    · rw [mapDel_cons, if_pos hq, ih, mapGet_cons,
        if_neg (by rw [hq]; exact fun hc => h hc.symm)]
    · rw [mapDel_cons, if_neg hq, mapGet_cons, mapGet_cons, ih]

theorem mapGet_mapDel_none {κ α : Type} [DecidableEq κ]
    (m : List (κ × α)) (k k' : κ) (h : mapGet m k' = none) :
    mapGet (mapDel m k) k' = none := by
  by_cases hk : k' = k
  · rw [hk]
    exact mapGet_mapDel_self m k
  · rw [mapGet_mapDel_ne m k k' hk]
    exact h

/-! ### Load-event traces for postponed breakpoints -/

/-- The engine response to a control command that stops on a newly loaded
source file `p`. -/
def loadResponse (p : String) : List String :=
  ["c", "loaded source " ++ p, "  DB<1> "]

/-- Paths whose processing is the identity: already normalized (no
backslashes), not relative, printable on one line, and not containing the
termination sentinel. -/
def PlainPath (p : String) : Prop :=
  normalizePathAndCasing p = p ∧ strStartsWith p "." = false ∧
  (∀ c ∈ p.toList, jsDot c = true) ∧
  strContains (String.intercalate "," (loadResponse p))
    "Debugged program terminated." = false

theorem find_loadResponse (p : String) :
    (loadResponse p).find? (fun ln => strContains ln "loaded source") =
      some ("loaded source " ++ p) := by
  have h1 : strContains "c" "loaded source" = false := by decide
  simp [loadResponse, List.find?, h1, strContains_loadedSource p]

theorem loadedSourceApply_eq (nb : Int → Bool) (cl : Int) (cwd : String)
    (st : BpState) (p : String) (hplain : PlainPath p) :
    loadedSourceApply nb cl cwd st ("loaded source " ++ p) =
      match mapGet st.postponedBreakpoints p with
      | none => (st, [], false)
      | some bps =>
        ((setBreakpointsInFile nb st p (bps.map bpDataToSourceBp)).1,
          (setBreakpointsInFile nb st p (bps.map bpDataToSourceBp)).2.2,
          bps.any (fun b => b.line = cl)) := by
  obtain ⟨hnorm, hdot, hchars, _⟩ := hplain
  simp only [loadedSourceApply, loadedSourcePath_concat p hchars, hdot,
    Bool.false_eq_true, if_false, hnorm]

/-- The state effect of `execute` on a plain loaded-source response: apply
(and thereby consume) the file's postponed entry if present. -/
theorem execute_load_st (nb : Int → Bool) (cl : Int) (cwd : String)
    (st : BpState) (p : String) (hplain : PlainPath p) :
    (execute nb cl cwd st "c" (loadResponse p)).st =
      match mapGet st.postponedBreakpoints p with
      | none => st
      | some bps =>
        (setBreakpointsInFile nb st p (bps.map bpDataToSourceBp)).1 := by
  have hsent := hplain.2.2.2
  simp only [execute, hsent, Bool.false_eq_true, if_false,
    find_loadResponse p, loadedSourceApply_eq nb cl cwd st p hplain]
  cases hl : mapGet st.postponedBreakpoints p with
  | none =>
    simp only
    split
    · rfl
    · split
      · rfl
      · rfl
  | some bps =>
    simp only
    split
    · rfl
    · split
      · rfl
      · rfl

/-- The postponed entry of `f` after a plain load of `p`. -/
theorem execute_load_postponed (nb : Int → Bool) (cl : Int) (cwd : String)
    (st : BpState) (p f : String) (hplain : PlainPath p) :
    mapGet (execute nb cl cwd st "c"
        (loadResponse p)).st.postponedBreakpoints f =
      if p = f ∨ mapGet st.postponedBreakpoints f = none then
        (if (mapGet st.postponedBreakpoints p).isSome then
          mapGet (mapDel st.postponedBreakpoints p) f
        else mapGet st.postponedBreakpoints f)
      else mapGet st.postponedBreakpoints f := by
  rw [execute_load_st nb cl cwd st p hplain]
  cases hl : mapGet st.postponedBreakpoints p with
  | none =>
    simp only [hl, Option.isSome_none, Bool.false_eq_true, if_false]
    split <;> rfl
  | some bps =>
    simp only [setBreakpointsInFile]
    rw [hplain.1]
    simp only [hl, Option.isSome_some, if_true]
    by_cases hpf : p = f
    · simp [hpf]
    · by_cases hnone : mapGet st.postponedBreakpoints f = none
      · simp only [hpf, hnone, or_true, if_true]
      · simp only [hpf, hnone, or_false, false_or, if_false]
        exact mapGet_mapDel_ne _ p f (fun hc => hpf hc.symm)

/-- The trace semantics: process one loaded-source response per trace
element through `execute`, recording for each step whether `f`'s postponed
entry was present and `f` was the loaded file (i.e. whether the entry was
applied at that step). -/
def runLoads (nb : Int → Bool) (cl : Int) (cwd : String) (f : String) :
    BpState → List String → BpState × List Bool
  | st, [] => (st, [])
  | st, p :: rest =>
    let applied := (mapGet st.postponedBreakpoints f).isSome &&
      decide (p = f)
    let next := runLoads nb cl cwd f
      (execute nb cl cwd st "c" (loadResponse p)).st rest
    (next.1, applied :: next.2)

/-- The expected application pattern: true exactly at the first occurrence
of `f`. -/
def firstHit (f : String) : List String → List Bool
  | [] => []
  | p :: rest =>
    if p = f then true :: List.replicate rest.length false
    else false :: firstHit f rest

theorem count_true_replicate_false (n : Nat) :
    (List.replicate n false).count true = 0 := by
  induction n with
  | zero => rfl
  | succ n ih => simp [List.replicate_succ, List.count_cons, ih]

theorem firstHit_count (f : String) (trace : List String) :
    (firstHit f trace).count true = (if f ∈ trace then 1 else 0) := by
  induction trace with
  | nil => rfl
  | cons p rest ih =>
    by_cases hpf : p = f
    · subst hpf
      simp [firstHit, List.count_cons, count_true_replicate_false]
    · have hfp : ¬ f = p := fun h => hpf h.symm
      simp [firstHit, hpf, List.count_cons, ih, hfp, List.mem_cons]

/-- After a trace of plain loads starting with no postponed entry for `f`,
the entry is never applied and stays absent. -/
theorem runLoads_absent (nb : Int → Bool) (cl : Int) (cwd : String)
    (f : String) (trace : List String) :
    ∀ st : BpState, (∀ p ∈ trace, PlainPath p) →
    mapGet st.postponedBreakpoints f = none →
    (runLoads nb cl cwd f st trace).2 =
      List.replicate trace.length false ∧
    mapGet (runLoads nb cl cwd f st trace).1.postponedBreakpoints f =
      none := by
  induction trace with
  | nil => intro st _ hnone; exact ⟨rfl, hnone⟩
  | cons p rest ih =>
    intro st hplain hnone
    have hp := hplain p (List.mem_cons_self p rest)
    have hrest : ∀ q ∈ rest, PlainPath q :=
      fun q hq => hplain q (List.mem_cons_of_mem p hq)
    have hnone' : mapGet (execute nb cl cwd st "c"
        (loadResponse p)).st.postponedBreakpoints f = none := by
      rw [execute_load_postponed nb cl cwd st p f hp]
      simp only [hnone, or_true, if_true]
      split
      · exact mapGet_mapDel_none _ p f hnone
      · rfl
    obtain ⟨h1, h2⟩ := ih _ hrest hnone'
    refine ⟨?_, ?_⟩
    · simp only [runLoads]
      rw [h1]
      simp [hnone, List.replicate_succ]
    · simp only [runLoads]
      exact h2

/-- After a trace of plain loads starting with a postponed entry for `f`,
the applied-flags are exactly `firstHit` and the entry is gone iff `f`
appeared. -/
theorem runLoads_present (nb : Int → Bool) (cl : Int) (cwd : String)
    (f : String) (bps : List BpData) (trace : List String) :
    ∀ st : BpState, (∀ p ∈ trace, PlainPath p) →
    mapGet st.postponedBreakpoints f = some bps →
    (runLoads nb cl cwd f st trace).2 = firstHit f trace ∧
    mapGet (runLoads nb cl cwd f st trace).1.postponedBreakpoints f =
      (if f ∈ trace then none else some bps) := by
  induction trace with
  | nil => intro st _ hentry; exact ⟨rfl, by simp [runLoads, hentry]⟩
  | cons p rest ih =>
    intro st hplain hentry
    have hp := hplain p (List.mem_cons_self p rest)
    have hrest : ∀ q ∈ rest, PlainPath q :=
      fun q hq => hplain q (List.mem_cons_of_mem p hq)
    by_cases hpf : p = f
    · subst hpf
      have hnone' : mapGet (execute nb cl cwd st "c"
          (loadResponse p)).st.postponedBreakpoints p = none := by
        rw [execute_load_postponed nb cl cwd st p p hp]
        simp [hentry, mapGet_mapDel_self]
      obtain ⟨h1, h2⟩ := runLoads_absent nb cl cwd p rest _ hrest hnone'
      refine ⟨?_, ?_⟩
      · simp only [runLoads]
        rw [h1]
        simp [hentry, firstHit]
      · simp only [runLoads]
        rw [h2]
        simp
    · have hkeep : mapGet (execute nb cl cwd st "c"
          (loadResponse p)).st.postponedBreakpoints f = some bps := by
        rw [execute_load_postponed nb cl cwd st p f hp]
        simp [hpf, hentry]
      obtain ⟨h1, h2⟩ := ih _ hrest hkeep
      have hfp : ¬ f = p := fun h => hpf h.symm
      refine ⟨?_, ?_⟩
      · simp only [runLoads]
        rw [h1]
        simp [hpf, firstHit]
      · simp only [runLoads]
        rw [h2]
        simp [List.mem_cons, hfp]

/-- The launch-time postponed loop never resurrects an absent entry
(`setBreakpointsInFile` only deletes keys). -/
theorem launchApplyGo_none (nb : Int → Bool)
    (engineF : String → List String) (f : String) (keys : List String) :
    ∀ st : BpState,
    mapGet st.postponedBreakpoints f = none →
    mapGet (launchApplyGo nb engineF st keys).1.postponedBreakpoints f =
      none := by
  induction keys with
  | nil => intro st h; exact h
  | cons k rest ih =>
    intro st h
    simp only [launchApplyGo]
    split
    · apply ih
      simp only [setBreakpointsInFile]
      exact mapGet_mapDel_none _ _ f h
    · exact ih st h

/-- When the launch loop reaches `f` with a live entry and the context
switch succeeds, the entry is applied and removed for good. -/
theorem launchApplyGo_applies (nb : Int → Bool)
    (engineF : String → List String) (st : BpState) (f : String)
    (rest : List String) (bps : List BpData)
    (hnorm : normalizePathAndCasing f = f)
    (hentry : mapGet st.postponedBreakpoints f = some bps)
    (hctx : (changeFileContext engineF f).1.isSome = true) :
    mapGet (launchApplyGo nb engineF st
        (f :: rest)).1.postponedBreakpoints f = none := by
  obtain ⟨ctx, hc⟩ := Option.isSome_iff_exists.mp hctx
  simp only [launchApplyGo, hentry, hc]
  apply launchApplyGo_none
  simp only [setBreakpointsInFile]
  rw [hnorm]
  exact mapGet_mapDel_self _ f

/-- C3: for every file `f` holding postponed breakpoints, over any trace of
plainly-named loaded-source stops processed by `execute`, the postponed
entry is applied exactly at the first load of `f` (the per-step applied
flags equal `firstHit`, so `true` occurs once iff `f` is loaded at all),
and the entry is removed from the postponed map at that point, so no later
load of `f` reapplies it; likewise the launch-completion loop applies a
live entry once and removes it. -/
theorem postponedAppliedOnce (nb : Int → Bool) (cl : Int) (cwd : String)
    (st : BpState) (f : String) (bps : List BpData) (trace : List String)
    (hentry : mapGet st.postponedBreakpoints f = some bps)
    (hplain : ∀ p ∈ trace, PlainPath p) :
    (runLoads nb cl cwd f st trace).2 = firstHit f trace ∧
    ((runLoads nb cl cwd f st trace).2.count true =
      if f ∈ trace then 1 else 0) ∧
    (mapGet (runLoads nb cl cwd f st trace).1.postponedBreakpoints f =
      if f ∈ trace then none else some bps) ∧
    (∀ (engineF : String → List String) (rest : List String),
      normalizePathAndCasing f = f →
      (changeFileContext engineF f).1.isSome = true →
      mapGet (launchApplyGo nb engineF st
          (f :: rest)).1.postponedBreakpoints f = none) := by
  obtain ⟨h1, h2⟩ := runLoads_present nb cl cwd f bps trace st hplain hentry
  refine ⟨h1, ?_, h2, ?_⟩
  · rw [h1]; exact firstHit_count f trace
  · intro engineF rest hnorm hctx
    exact launchApplyGo_applies nb engineF st f rest bps hnorm hentry hctx

def c3St : BpState :=
  { currentBreakpointID := 1, breakpointsMap := [],
    postponedBreakpoints := [("t.pl", [⟨3, 1, ""⟩])] }

def c3Trace : List String := ["a.pl", "t.pl", "t.pl"]

theorem postponedAppliedOnce_witness :
    (mapGet c3St.postponedBreakpoints "t.pl" = some [⟨3, 1, ""⟩]) ∧
    (∀ p ∈ c3Trace, PlainPath p) ∧
    ((runLoads (fun _ => false) 0 "" "t.pl" c3St c3Trace).2 =
        firstHit "t.pl" c3Trace ∧
      ((runLoads (fun _ => false) 0 "" "t.pl" c3St c3Trace).2.count true =
        if "t.pl" ∈ c3Trace then 1 else 0) ∧
      (mapGet (runLoads (fun _ => false) 0 "" "t.pl" c3St
          c3Trace).1.postponedBreakpoints "t.pl" =
        if "t.pl" ∈ c3Trace then none else some [⟨3, 1, ""⟩]) ∧
      (∀ (engineF : String → List String) (rest : List String),
        normalizePathAndCasing "t.pl" = "t.pl" →
        (changeFileContext engineF "t.pl").1.isSome = true →
        mapGet (launchApplyGo (fun _ => false) engineF c3St
            ("t.pl" :: rest)).1.postponedBreakpoints "t.pl" = none)) :=
  have h1 : mapGet c3St.postponedBreakpoints "t.pl" =
      some [⟨3, 1, ""⟩] := by decide
  have h2 : ∀ p ∈ c3Trace, PlainPath p := by
    intro p hp
    simp only [c3Trace, List.mem_cons, List.not_mem_nil, or_false] at hp
    rcases hp with rfl | rfl | rfl
    · exact ⟨by decide, by decide, by decide, by decide⟩
    · exact ⟨by decide, by decide, by decide, by decide⟩
    · exact ⟨by decide, by decide, by decide, by decide⟩
  ⟨h1, h2, postponedAppliedOnce (fun _ => false) 0 "" c3St "t.pl"
    [⟨3, 1, ""⟩] c3Trace h1 h2⟩

/-! ### The expression reconstructor against its specification

`specBase`/`specSteps`/`specExpression` are spec-side definitions written
from the claim's words (aggregate-sigil root `@`/`%` becomes a scalar-sigil
base, a scalar-sigil root becomes an arrow-accessed base; each step appends
`[index]` when the parent container kind is ARRAY and a quoted-key accessor,
arrow-qualified when the expression currently ends with a bracket, when
HASH; the kind for each step is the next node's own recorded kind), to be
compared with the source-derived `rootBase`/`buildSteps`/`getExpression`. -/

def specBase (name : String) : String :=
  if strStartsWith name "$" then name ++ "->"
  else if strStartsWith name "@" ∨ strStartsWith name "%" then
    "$" ++ ⟨name.toList.tail⟩
  else name

def specSteps : String → String → List Variable → String
  | _, e, [] => e
  | parentKind, e, v :: rest =>
    let e' :=
      if parentKind = "ARRAY" then e ++ "[" ++ v.name ++ "]"
      else if parentKind = "HASH" then
        (if strEndsWith e "]" then e ++ "->" else e) ++ "\x7b\x27" ++
          v.name ++ "\x27\x7d"
      else e
    specSteps ((rootKind v.value).getD "") e' rest

def specExpression (root : Variable) (descendants : List Variable) :
    String :=
  specSteps ((rootKind root.value).getD "") (specBase root.name) descendants

theorem rootBase_eq_specBase (n : String)
    (h : strStartsWith n "|" = false) : rootBase n = specBase n := by
  by_cases h1 : strStartsWith n "$" = true
  · simp [rootBase, specBase, h1]
  · by_cases h2 : strStartsWith n "%" = true
    · simp [rootBase, specBase, h1, h2]
    · by_cases h3 : strStartsWith n "@" = true
      · simp [rootBase, specBase, h1, h2, h3, h]
      · simp [rootBase, specBase, h1, h2, h3, h]

theorem kindOrSelf_of_rootKind (value : String)
    (h : (rootKind value).isSome = true) :
    kindOrSelf value = (rootKind value).getD "" := by
  by_cases hA : strStartsWith value "ARRAY" = true
  · simp [kindOrSelf, rootKind, hA]
  · by_cases hH : strStartsWith value "HASH" = true
    · simp [kindOrSelf, rootKind, hA, hH]
    · simp [rootKind, hA, hH] at h

/-- The accessor loop agrees with the spec-side walk whenever every node
whose kind is consulted (all but the leaf) has a recognizable container
kind. -/
theorem buildSteps_eq_specSteps (vs : List Variable) :
    ∀ (ct e : String),
    (∀ v ∈ vs.dropLast, (rootKind v.value).isSome = true) →
    buildSteps ct e vs = specSteps ct e vs := by
  induction vs with
  | nil => intro ct e _; rfl
  | cons v rest ih =>
    intro ct e hk
    cases rest with
    | nil => rfl
    | cons w rs =>
      have hstep : List.dropLast (v :: w :: rs) =
          v :: List.dropLast (w :: rs) := rfl
      have hv : (rootKind v.value).isSome = true :=
        hk v (by rw [hstep]; exact List.mem_cons_self _ _)
      have hk' : ∀ u ∈ (w :: rs).dropLast,
          (rootKind u.value).isSome = true :=
        fun u hu => hk u (by rw [hstep]; exact List.mem_cons_of_mem _ hu)
      have e1 : buildSteps ct e (v :: w :: rs) =
          buildSteps (kindOrSelf v.value)
            (if ct = "ARRAY" then e ++ "[" ++ v.name ++ "]"
             else if ct = "HASH" then
               (if strEndsWith e "]" then e ++ "->" else e) ++ "\x7b\x27" ++
                 v.name ++ "\x27\x7d"
             else e) (w :: rs) := rfl
      have e2 : specSteps ct e (v :: w :: rs) =
          specSteps ((rootKind v.value).getD "")
            (if ct = "ARRAY" then e ++ "[" ++ v.name ++ "]"
             else if ct = "HASH" then
               (if strEndsWith e "]" then e ++ "->" else e) ++ "\x7b\x27" ++
                 v.name ++ "\x27\x7d"
             else e) (w :: rs) := rfl
      rw [e1, e2, kindOrSelf_of_rootKind v.value hv]
      exact ih _ _ hk'

/-- States produced by actual variables requests, used for the claim's two
concrete examples: `@b = (1,2,3)` and `%h = ("a" => 1, "b" => [1,2,3])`. -/
def dumpArrayResponse : List String :=
  ["cmd", "$VAR1 = [", "  1,", "  2,", "  3,", "];", "  DB<2> "]

def arrayVarState : VarState :=
  ((parseVars initVarState [dumpArrayResponse] ["@b"]).map
    (fun r => r.st)).getD initVarState

def hashVarState : VarState :=
  ((parseVars initVarState [dumpHashResponse] ["%h"]).map
    (fun r => r.st)).getD initVarState

/-- C6: for every child reachable from a root (the queried handle's child
list contains the expression's node, and the ancestor scan yields `chain`),
`getExpression` returns exactly the spec-described expression — scalar-sigil
base from an `@`/`%` root, arrow base from a `$` root, then `[index]` per
ARRAY step and `\x7b\x27key\x27\x7d` (arrow-qualified after a bracket) per
HASH step, kinds taken from each next node — provided every consulted node
records a container kind; in particular element 1 of `@b` reconstructs to
`$b[1]` and key `a` of `%h` to `$h\x7b\x27a\x27\x7d`. -/
theorem expressionReconstructorSpec (st : VarState) (id : Int)
    (expression : String) (lastParent : Variable) (chain : List Variable)
    (hfind : (mapGet st.childVarsMap id).bind
        (fun l => l.find? (fun e => e.name = expression)) = some lastParent)
    (hchain : collectParents (collectFuel st id) st id lastParent
        [lastParent] = chain)
    (hbar : strStartsWith (chain.getLastD lastParent).name "|" = false)
    (hkinds : ∀ v ∈ (chain.reverse.tail).dropLast,
        (rootKind v.value).isSome = true) :
    (getExpression st id expression =
      specExpression (chain.getLastD lastParent) chain.reverse.tail) ∧
    getExpression arrayVarState 998 "1" = "$b[1]" ∧
    getExpression hashVarState 998 "a" = "$h\x7b\x27a\x27\x7d" := by
  refine ⟨?_, by decide, by decide⟩
  simp only [getExpression, hfind]
  rw [hchain]
  show buildSteps _ (rootBase _) _ = _
  rw [rootBase_eq_specBase _ hbar]
  exact buildSteps_eq_specSteps _ _ _ hkinds

def c6Last : Variable :=
  ((mapGet hashVarState.childVarsMap 998).bind
    (fun l => l.find? (fun e => e.name = "a"))).getD
    { name := "", value := "", variablesReference := 0 }

def c6Chain : List Variable :=
  collectParents (collectFuel hashVarState 998) hashVarState 998 c6Last
    [c6Last]

theorem expressionReconstructorSpec_witness :
    ((mapGet hashVarState.childVarsMap 998).bind
        (fun l => l.find? (fun e => e.name = "a")) = some c6Last) ∧
    (collectParents (collectFuel hashVarState 998) hashVarState 998 c6Last
        [c6Last] = c6Chain) ∧
    (strStartsWith (c6Chain.getLastD c6Last).name "|" = false) ∧
    (∀ v ∈ (c6Chain.reverse.tail).dropLast,
        (rootKind v.value).isSome = true) ∧
    ((getExpression hashVarState 998 "a" =
        specExpression (c6Chain.getLastD c6Last) c6Chain.reverse.tail) ∧
      getExpression arrayVarState 998 "1" = "$b[1]" ∧
      getExpression hashVarState 998 "a" = "$h\x7b\x27a\x27\x7d") :=
  ⟨by decide, rfl, by decide, by decide,
    expressionReconstructorSpec hashVarState 998 "a" c6Last c6Chain
      (by decide) rfl (by decide) (by decide)⟩

end PerlDebug
